import Mathlib

/-!
Verification development for the chess engine core in src/lib/engine-core.js
(an IIFE exposing EngineCore) and the ChessEngine wrapper class.

The JavaScript code is shallowly embedded:
* strings become List Char, JS String.prototype.split on a single character
  becomes splitCh (which, like JS, keeps empty groups);
* JS numbers holding integers become Int; parseInt(s, 10) becomes parseIntJS,
  which returns none where JS would produce NaN, and also returns none past
  the 2 to the 53 double-exactness boundary (a documented restriction of the
  domain of the model, never exercised by any theorem below);
* the 64-slot board array becomes List (Option Char) of length 64; writes out
  of range 0..63 are modelled as a parse failure (JS would silently grow the
  array there, and such positions do not survive a FEN round trip either way);
* mutation becomes explicit state passing; because undoMove is not an exact
  inverse of makeMove on en-passant moves, the state is threaded through the
  legality filter and the search loops exactly as the mutations happen in JS;
* JS % on numbers is Int.tmod (sign of the dividend) and Math.floor of a
  division is Int.fdiv.
-/

namespace EngineCore

/-- Characters that JS isNaN coerces to a number although they are not ASCII
digits: whitespace forms.  Inside a FEN rank such a character poisons the file
index with NaN in JS; the model treats this as a parse failure (a restriction
of the domain, documented above). -/
def isJsWs (c : Char) : Bool :=
  c = ' ' ∨ c = '\t' ∨ c = '\n' ∨ c = '\r' ∨ c = Char.ofNat 11 ∨ c = Char.ofNat 12 ∨
  c = Char.ofNat 160 ∨ c = Char.ofNat 0xfeff

/-- Value of the decimal digits of a character list, most significant first. -/
def digitsVal (ds : List Char) : Nat :=
  ds.foldl (fun a c => 10 * a + (c.toNat - 48)) 0

/-- Decimal digit characters of a natural number, with explicit fuel so that
the definition is structurally recursive and kernel-reducible. -/
def natDigitsAux : Nat → Nat → List Char
  | 0, _ => []
  | f + 1, n =>
    if n < 10 then [Char.ofNat (48 + n)]
    else natDigitsAux f (n / 10) ++ [Char.ofNat (48 + n % 10)]

def natDigits (n : Nat) : List Char := natDigitsAux (n + 1) n

/-- JS String(n) for an integer-valued number in the double-exact range:
plain decimal notation, with a leading minus sign when negative. -/
def intToString (n : Int) : List Char :=
  if n < 0 then '-' :: natDigits n.natAbs else natDigits n.toNat

/-- Model of parseInt(s, 10): skip leading whitespace, read an optional sign
and then a maximal run of decimal digits; none models NaN (no digits), and
values beyond the 2 to the 53 exactness range of doubles are also mapped to
none (domain restriction, see the header comment). -/
def parseSign : List Char → Int × List Char
  | [] => (1, [])
  | c :: t => if c = '-' then (-1, t) else if c = '+' then (1, t) else (1, c :: t)

def parseIntJS (s : List Char) : Option Int :=
  let p := parseSign (s.dropWhile isJsWs)
  let ds := p.2.takeWhile Char.isDigit
  if ds = [] then none
  else
    let v : Int := p.1 * (digitsVal ds : Int)
    if v.natAbs ≤ 2 ^ 53 then some v else none

/-- JS String.prototype.split on a single separator character: consecutive
separators and separators at the ends produce empty groups, like in JS. -/
def splitCh (sep : Char) : List Char → List (List Char)
  | [] => [[]]
  | c :: cs =>
    if c = sep then [] :: splitCh sep cs
    else (splitCh sep cs).modifyHead (fun g => c :: g)

/-- The FILES array of the source. -/
def FILES : List Char := ['a', 'b', 'c', 'd', 'e', 'f', 'g', 'h']

/-- FILES.indexOf c, which is -1 when the character is not a file letter. -/
def filesIndexOf (c : Char) : Int :=
  match FILES.findIdx? (fun d => d = c) with
  | some i => (i : Int)
  | none => -1

/-- The board: one slot per square, a1 = 0 .. h8 = 63, empty slots none. -/
abbrev Board := List (Option Char)

/-- Guarded indexed read; out of range reads give none, matching the use of
an undefined JS array element as a falsy piece value. -/
def getSq (b : Board) (i : Int) : Option Char :=
  if 0 ≤ i ∧ i < 64 then (b.get? i.toNat).getD none else none

/-- Guarded indexed write; indices 0..63 write through, everything else is
dropped (JS would grow the array past 63, see the header comment; board
writes of move application always stay in range for generator moves). -/
def setSq (b : Board) (i : Int) (v : Option Char) : Board :=
  if 0 ≤ i ∧ i < 64 then b.set i.toNat v else b

/-- The Position record of the engine: board, side to move, the four castling
flags of the castling object, en-passant target index (-1 for none), halfmove
clock and fullmove counter. -/
structure State where
  board : Board
  whiteToMove : Bool
  castleK : Bool
  castleQ : Bool
  castlek : Bool
  castleq : Bool
  enPassant : Int
  halfmove : Int
  fullmove : Int
deriving DecidableEq, Repr

/-- Move special flags used by the source as string tags. -/
inductive MFlag
  | double
  | enpassant
  | promotion
  | castle
deriving DecidableEq, Repr

/-- Move record: absent optional JS fields are none. -/
structure Move where
  mfrom : Int
  mto : Int
  piece : Char
  capture : Option Char := none
  promotion : Option Char := none
  flag : Option MFlag := none
  castle : Option Char := none
deriving DecidableEq, Repr

/-- Undo record returned by makeMove. -/
structure Undo where
  move : Move
  captured : Option Char
  enPassant : Int
  castleK : Bool
  castleQ : Bool
  castlek : Bool
  castleq : Bool
  halfmove : Int
  fullmove : Int
deriving DecidableEq, Repr

/-- indexToSquare of the source.  For an index whose JS remainder by 8 is
negative, FILES[file] is undefined and undefined + number is NaN in JS, which
the template string renders as the three characters NaN. -/
def indexToSquare (idx : Int) : List Char :=
  let file := Int.tmod idx 8
  let rank := Int.fdiv idx 8
  if 0 ≤ file then FILES.getD file.toNat '?' :: intToString (rank + 1)
  else ['N', 'a', 'N']

/-- squareToIndex of the source; none models a NaN result (second character
missing or not parsing as a number). -/
def squareToIndex (square : List Char) : Option Int :=
  let file := filesIndexOf (square.getD 0 ' ')
  match square.get? 1 with
  | none => none
  | some c =>
    match parseIntJS [c] with
    | none => none
    | some r => some ((r - 1) * 8 + file)

/-- One parsing step of the inner rank loop of fenToState: digits advance the
file, other characters are placed on the board; whitespace-like characters
and board writes past index 63 make the parse fail (see the header comment). -/
def parseRankLoop (b : Board) (r : Nat) : List Char → Nat → Option Board
  | [], _ => some b
  | c :: cs, file =>
    if c.isDigit then parseRankLoop b r cs (file + (c.toNat - 48))
    else if isJsWs c then none
    else
      if 8 * r + file < 64 then
        parseRankLoop (b.set (8 * r + file) (some c)) r cs (file + 1)
      else none

/-- The outer rank loop of fenToState: parse the listed rank strings into
board rows r, r + 1, ... in turn, failing when any rank fails. -/
def parseRanksGo (b : Board) : Nat → List (List Char) → Option Board
  | _, [] => some b
  | r, t :: ts =>
    match parseRankLoop b r t 0 with
    | none => none
    | some b2 => parseRanksGo b2 (r + 1) ts

/-- The rank loop of fenToState: board rows r = 0..7 are filled from the rank
strings ranks[7 - r]; fewer than 8 ranks is a JS TypeError, hence none. -/
def parseBoardPart (bp : List Char) : Option Board :=
  let ranks := splitCh '/' bp
  match ranks.get? 7, ranks.get? 6, ranks.get? 5, ranks.get? 4,
        ranks.get? 3, ranks.get? 2, ranks.get? 1, ranks.get? 0 with
  | some t0, some t1, some t2, some t3, some t4, some t5, some t6, some t7 =>
    parseRanksGo (List.replicate 64 none) 0 [t0, t1, t2, t3, t4, t5, t6, t7]
  | _, _, _, _, _, _, _, _ => none

/-- Castling flags as parsed from the third FEN field: only the four letters
K Q k q set a flag, every other character is silently ignored; an absent,
empty or "-" field leaves all flags false. -/
def parseCastlingPart (x : Option (List Char)) : Bool × Bool × Bool × Bool :=
  match x with
  | none => (false, false, false, false)
  | some cs =>
    if cs = [] ∨ cs = ['-'] then (false, false, false, false)
    else
      cs.foldl
        (fun k c =>
          if c = 'K' then (true, k.2.1, k.2.2.1, k.2.2.2)
          else if c = 'Q' then (k.1, true, k.2.2.1, k.2.2.2)
          else if c = 'k' then (k.1, k.2.1, true, k.2.2.2)
          else if c = 'q' then (k.1, k.2.1, k.2.2.1, true)
          else k)
        (false, false, false, false)

/-- The en-passant field: an absent field is a JS TypeError inside
squareToIndex, "-" is -1, anything else goes through squareToIndex. -/
def parseEpPart (x : Option (List Char)) : Option Int :=
  match x with
  | none => none
  | some t => if t = ['-'] then some (-1) else squareToIndex t

/-- A numeric FEN field with its JS fallback text (halfmove || default). -/
def parseNumPart (x : Option (List Char)) (dflt : List Char) : Option Int :=
  match x with
  | none => parseIntJS dflt
  | some t => if t = [] then parseIntJS dflt else parseIntJS t

/-- fenToState of the source.  none models a thrown TypeError or a NaN-poisoned
numeric field (see the header comment for the exact modelling line). -/
def fenToState (fen : List Char) : Option State :=
  let fields := splitCh ' ' fen
  match parseBoardPart (fields.getD 0 []),
        parseEpPart (fields.get? 3),
        parseNumPart (fields.get? 4) ['0'],
        parseNumPart (fields.get? 5) ['1'] with
  | some b, some ep, some hm, some fm =>
    let c := parseCastlingPart (fields.get? 2)
    some { board := b
           whiteToMove := fields.get? 1 = some ['w']
           castleK := c.1, castleQ := c.2.1, castlek := c.2.2.1, castleq := c.2.2.2
           enPassant := ep, halfmove := hm, fullmove := fm }
  | _, _, _, _ => none

/-- The rank serialization loop of generateFEN, carrying the count of pending
empty squares. -/
def emitRankAux : List (Option Char) → Nat → List Char
  | [], e => if e > 0 then natDigits e else []
  | none :: rest, e => emitRankAux rest (e + 1)
  | some c :: rest, e =>
    (if e > 0 then natDigits e else []) ++ c :: emitRankAux rest 0

/-- Slots of board row r (rank r + 1), a file 0..7. -/
def rowSlots (b : Board) (r : Nat) : List (Option Char) :=
  (b.drop (8 * r)).take 8

/-- The board part of generateFEN: rows 7 down to 0, separated by slashes. -/
def emitBoard (b : Board) : List Char :=
  emitRankAux (rowSlots b 7) 0 ++ '/' ::
  (emitRankAux (rowSlots b 6) 0 ++ '/' ::
  (emitRankAux (rowSlots b 5) 0 ++ '/' ::
  (emitRankAux (rowSlots b 4) 0 ++ '/' ::
  (emitRankAux (rowSlots b 3) 0 ++ '/' ::
  (emitRankAux (rowSlots b 2) 0 ++ '/' ::
  (emitRankAux (rowSlots b 1) 0 ++ '/' ::
  emitRankAux (rowSlots b 0) 0))))))

/-- The castling field of generateFEN: the set letters in K Q k q order, or
a dash when none is set (the JS || fallback on the empty join). -/
def emitCastling (s : State) : List Char :=
  let l := (if s.castleK then ['K'] else []) ++ (if s.castleQ then ['Q'] else []) ++
           (if s.castlek then ['k'] else []) ++ (if s.castleq then ['q'] else [])
  if l = [] then ['-'] else l

/-- generateFEN of the source. -/
def generateFEN (s : State) : List Char :=
  emitBoard s.board ++ ' ' ::
  ((if s.whiteToMove then ['w'] else ['b']) ++ ' ' ::
  (emitCastling s ++ ' ' ::
  ((if s.enPassant = -1 then ['-'] else indexToSquare s.enPassant) ++ ' ' ::
  (intToString s.halfmove ++ ' ' :: intToString s.fullmove))))

/-- pieceColor of the source: null for an empty slot, otherwise w for an
uppercase piece character and b otherwise. -/
def pieceColor (p : Option Char) : Option Char :=
  match p with
  | none => none
  | some c => if c = c.toUpper then some 'w' else some 'b'

def KNIGHT_DELTAS : List Int := [-17, -15, -10, -6, 6, 10, 15, 17]
def BISHOP_DELTAS : List Int := [-9, -7, 7, 9]
def ROOK_DELTAS : List Int := [-8, -1, 1, 8]
def QUEEN_DELTAS : List Int := BISHOP_DELTAS ++ ROOK_DELTAS

/-- The while loop of a sliding-attack ray in isSquareAttacked: walk from
square (f, r) in steps of (stepFile, stepRank), stopping at the first
occupied square, which attacks iff it satisfies hit.  Rays have at most 8
in-range squares, so fuel 8 is always enough. -/
def attackRay (b : Board) (hit : Char → Bool) (stepFile stepRank : Int) :
    Nat → Int → Int → Bool
  | 0, _, _ => false
  | fuel + 1, f, r =>
    if 0 ≤ f ∧ f < 8 ∧ 0 ≤ r ∧ r < 8 then
      match getSq b (r * 8 + f) with
      | some p => hit p
      | none => attackRay b hit stepFile stepRank fuel (f + stepFile) (r + stepRank)
    else false

/-- The 8 (dr, df) pairs of the king loops, in source iteration order. -/
def KING_PAIRS : List (Int × Int) :=
  [(-1, -1), (-1, 0), (-1, 1), (0, -1), (0, 1), (1, -1), (1, 0), (1, 1)]

/-- isSquareAttacked of the source: pawn squares, knight jumps, diagonal and
orthogonal rays, adjacent kings. -/
def isSquareAttacked (s : State) (squareIdx : Int) (byWhite : Bool) : Bool :=
  let dir : Int := if byWhite then 1 else -1
  let file := Int.tmod squareIdx 8
  let rank := Int.fdiv squareIdx 8
  (([-1, 1] : List Int).any fun df =>
    let tFile := file + df
    let tRank := rank - dir
    if tFile < 0 ∨ tFile > 7 ∨ tRank < 0 ∨ tRank > 7 then false
    else
      match getSq s.board (tRank * 8 + tFile) with
      | some p => if byWhite then p = 'P' else p = 'p'
      | none => false) ||
  (KNIGHT_DELTAS.any fun delta =>
    let target := squareIdx + delta
    if ¬ (0 ≤ target ∧ target < 64) then false
    else if (Int.tmod target 8 - file).natAbs > 2 then false
    else
      match getSq s.board target with
      | some p => if byWhite then p = 'N' else p = 'n'
      | none => false) ||
  (BISHOP_DELTAS.any fun delta =>
    let stepFile : Int := if delta = 9 ∨ delta = -7 then 1 else -1
    let stepRank : Int := if delta > 0 then 1 else -1
    attackRay s.board
      (fun p => if byWhite then p = 'B' ∨ p = 'Q' else p = 'b' ∨ p = 'q')
      stepFile stepRank 8 (file + stepFile) (rank + stepRank)) ||
  (ROOK_DELTAS.any fun delta =>
    let stepFile : Int := if delta = 1 then 1 else if delta = -1 then -1 else 0
    let stepRank : Int := if delta = 8 then 1 else if delta = -8 then -1 else 0
    attackRay s.board
      (fun p => if byWhite then p = 'R' ∨ p = 'Q' else p = 'r' ∨ p = 'q')
      stepFile stepRank 8 (file + stepFile) (rank + stepRank)) ||
  (KING_PAIRS.any fun drdf =>
    let tFile := file + drdf.2
    let tRank := rank + drdf.1
    if tFile < 0 ∨ tFile > 7 ∨ tRank < 0 ∨ tRank > 7 then false
    else
      match getSq s.board (tRank * 8 + tFile) with
      | some p => if byWhite then p = 'K' else p = 'k'
      | none => false)

/-- findKing of the source: index of the first slot holding the king of the
given color, or -1 when absent. -/
def findKing (s : State) (white : Bool) : Int :=
  match (List.range 64).find?
      (fun i => (s.board.get? i).getD none = some (if white then 'K' else 'k')) with
  | some i => (i : Int)
  | none => -1

/-- addPawnMove of the source: promotions fan out into the four choices. -/
def addPawnMove (mfrom mto : Int) (piece : Char) (promotion : Bool)
    (capture : Option Char) : List Move :=
  if promotion then
    (['q', 'r', 'b', 'n'].map fun promo =>
      let promoPiece := if piece = 'P' then promo.toUpper else promo
      { mfrom := mfrom, mto := mto, piece := piece, capture := capture
        promotion := some promoPiece, flag := some .promotion })
  else [{ mfrom := mfrom, mto := mto, piece := piece, capture := capture }]

/-- generatePawnMoves of the source: push / double push, diagonal captures,
en-passant capture, in source order. -/
def generatePawnMoves (s : State) (idx : Int) (piece : Char) : List Move :=
  let white := piece = 'P'
  let dir : Int := if white then 8 else -8
  let startRank : Int := if white then 1 else 6
  let promotionRank : Int := if white then 7 else 0
  let rank := Int.fdiv idx 8
  let forward := idx + dir
  (if (0 ≤ forward ∧ forward < 64) ∧ getSq s.board forward = none then
    addPawnMove idx forward piece (rank + 1 = promotionRank) none ++
    (let doubleForward := idx + dir * 2
     if rank = startRank ∧ getSq s.board doubleForward = none then
       [{ mfrom := idx, mto := doubleForward, piece := piece, capture := none
          flag := some .double }]
     else [])
  else []) ++
  (([-1, 1] : List Int).flatMap fun df =>
    let file := Int.tmod idx 8 + df
    if file < 0 ∨ file > 7 then []
    else
      let target := idx + dir + df
      let targetPiece := getSq s.board target
      (match targetPiece with
       | some tp =>
         if pieceColor (some tp) ≠ pieceColor (some piece) then
           addPawnMove idx target piece (rank + 1 = promotionRank) (some tp)
         else []
       | none => []) ++
      (if target = s.enPassant then
        [{ mfrom := idx, mto := target, piece := piece
           capture := some (if white then 'p' else 'P'), flag := some .enpassant }]
      else []))

/-- generateJumpMoves of the source (knights). -/
def generateJumpMoves (s : State) (idx : Int) (piece : Char) (deltas : List Int) :
    List Move :=
  deltas.flatMap fun delta =>
    let target := idx + delta
    if ¬ (0 ≤ target ∧ target < 64) then []
    else if (Int.tmod target 8 - Int.tmod idx 8).natAbs > 2 then []
    else
      match getSq s.board target with
      | none => [{ mfrom := idx, mto := target, piece := piece, capture := none }]
      | some tp =>
        if pieceColor (some tp) ≠ pieceColor (some piece) then
          [{ mfrom := idx, mto := target, piece := piece, capture := some tp }]
        else []

/-- The while loop of generateSlideMoves along one ray (fuel 8 as above). -/
def slideRay (b : Board) (idx : Int) (piece : Char) (stepFile stepRank : Int) :
    Nat → Int → Int → List Move
  | 0, _, _ => []
  | fuel + 1, f, r =>
    if 0 ≤ f ∧ f < 8 ∧ 0 ≤ r ∧ r < 8 then
      let target := r * 8 + f
      match getSq b target with
      | none =>
        { mfrom := idx, mto := target, piece := piece, capture := none } ::
          slideRay b idx piece stepFile stepRank fuel (f + stepFile) (r + stepRank)
      | some tp =>
        if pieceColor (some tp) ≠ pieceColor (some piece) then
          [{ mfrom := idx, mto := target, piece := piece, capture := some tp }]
        else []
    else []

/-- generateSlideMoves of the source (bishops, rooks, queens). -/
def generateSlideMoves (s : State) (idx : Int) (piece : Char) (deltas : List Int) :
    List Move :=
  let startFile := Int.tmod idx 8
  let startRank := Int.fdiv idx 8
  deltas.flatMap fun delta =>
    let stepFile : Int :=
      if delta = 1 then 1 else if delta = -1 then -1
      else if delta = 9 ∨ delta = -7 then 1
      else if delta = -9 ∨ delta = 7 then -1 else 0
    let stepRank : Int :=
      if delta = 8 ∨ delta = 9 ∨ delta = 7 then 1
      else if delta = -8 ∨ delta = -9 ∨ delta = -7 then -1 else 0
    slideRay s.board idx piece stepFile stepRank 8 (startFile + stepFile)
      (startRank + stepRank)

/-- generateKingMoves of the source: the 8 neighbor squares, then castling.
Square indices: e1 = 4, f1 = 5, g1 = 6, d1 = 3, c1 = 2, b1 = 1,
e8 = 60, f8 = 61, g8 = 62, d8 = 59, c8 = 58, b8 = 57. -/
def generateKingMoves (s : State) (idx : Int) (piece : Char) : List Move :=
  (KING_PAIRS.flatMap fun drdf =>
    let file := Int.tmod idx 8 + drdf.2
    let rank := Int.fdiv idx 8 + drdf.1
    if file < 0 ∨ file > 7 ∨ rank < 0 ∨ rank > 7 then []
    else
      let target := rank * 8 + file
      match getSq s.board target with
      | none => [{ mfrom := idx, mto := target, piece := piece, capture := none }]
      | some tp =>
        if pieceColor (some tp) ≠ pieceColor (some piece) then
          [{ mfrom := idx, mto := target, piece := piece, capture := some tp }]
        else []) ++
  (let white := piece = 'K'
   (if white ∧ idx = 4 then
     (if s.castleK ∧ getSq s.board 5 = none ∧ getSq s.board 6 = none then
       if ¬ isSquareAttacked s 4 false ∧ ¬ isSquareAttacked s 5 false ∧
          ¬ isSquareAttacked s 6 false then
         [{ mfrom := 4, mto := 6, piece := piece, flag := some .castle
            castle := some 'K' }]
       else []
     else []) ++
     (if s.castleQ ∧ getSq s.board 3 = none ∧ getSq s.board 2 = none ∧
          getSq s.board 1 = none then
       if ¬ isSquareAttacked s 4 false ∧ ¬ isSquareAttacked s 3 false ∧
          ¬ isSquareAttacked s 2 false then
         [{ mfrom := 4, mto := 2, piece := piece, flag := some .castle
            castle := some 'Q' }]
       else []
     else [])
   else []) ++
   (if ¬ white ∧ idx = 60 then
     (if s.castlek ∧ getSq s.board 61 = none ∧ getSq s.board 62 = none then
       if ¬ isSquareAttacked s 60 true ∧ ¬ isSquareAttacked s 61 true ∧
          ¬ isSquareAttacked s 62 true then
         [{ mfrom := 60, mto := 62, piece := piece, flag := some .castle
            castle := some 'k' }]
       else []
     else []) ++
     (if s.castleq ∧ getSq s.board 59 = none ∧ getSq s.board 58 = none ∧
          getSq s.board 57 = none then
       if ¬ isSquareAttacked s 60 true ∧ ¬ isSquareAttacked s 59 true ∧
          ¬ isSquareAttacked s 58 true then
         [{ mfrom := 60, mto := 58, piece := piece, flag := some .castle
            castle := some 'q' }]
       else []
     else [])
   else []))

/-- The pseudo-legal move list of generateMoves before the legality filter:
board scan order, then per-piece source order. -/
def pseudoMoves (s : State) : List Move :=
  (List.range 64).flatMap fun i =>
    match (s.board.get? i).getD none with
    | none => []
    | some piece =>
      if pieceColor (some piece) ≠ some (if s.whiteToMove then 'w' else 'b') then []
      else if piece.toLower = 'p' then generatePawnMoves s (i : Int) piece
      else if piece.toLower = 'n' then generateJumpMoves s (i : Int) piece KNIGHT_DELTAS
      else if piece.toLower = 'b' then generateSlideMoves s (i : Int) piece BISHOP_DELTAS
      else if piece.toLower = 'r' then generateSlideMoves s (i : Int) piece ROOK_DELTAS
      else if piece.toLower = 'q' then generateSlideMoves s (i : Int) piece QUEEN_DELTAS
      else if piece.toLower = 'k' then generateKingMoves s (i : Int) piece
      else []

/-- makeMove of the source, as a pure function from the state to the mutated
state plus the undo record; the mutations are applied in source order.
Square indices: a1 = 0, h1 = 7, a8 = 56, h8 = 63, f1 = 5, d1 = 3,
f8 = 61, d8 = 59, c1 = 2, g1 = 6. -/
def makeMove (s : State) (m : Move) : State × Undo :=
  let undo : Undo :=
    { move := m, captured := m.capture, enPassant := s.enPassant
      castleK := s.castleK, castleQ := s.castleQ
      castlek := s.castlek, castleq := s.castleq
      halfmove := s.halfmove, fullmove := s.fullmove }
  let s := { s with enPassant := -1, halfmove := s.halfmove + 1 }
  let movingPiece := m.promotion.getD m.piece
  let s :=
    if m.flag = some .enpassant then
      let capIdx := if s.whiteToMove then m.mto - 8 else m.mto + 8
      { s with board := setSq s.board capIdx none }
    else s
  let s := { s with board := setSq (setSq s.board m.mto (some movingPiece)) m.mfrom none }
  let s := if movingPiece.toLower = 'p' then { s with halfmove := 0 } else s
  let s := if m.capture.isSome then { s with halfmove := 0 } else s
  let s :=
    if m.flag = some .double then
      { s with enPassant := if s.whiteToMove then m.mto - 8 else m.mto + 8 }
    else s
  let s := if m.piece = 'K' then { s with castleK := false, castleQ := false } else s
  let s := if m.piece = 'k' then { s with castlek := false, castleq := false } else s
  let s := if m.mfrom = 0 ∨ m.mto = 0 then { s with castleQ := false } else s
  let s := if m.mfrom = 7 ∨ m.mto = 7 then { s with castleK := false } else s
  let s := if m.mfrom = 56 ∨ m.mto = 56 then { s with castleq := false } else s
  let s := if m.mfrom = 63 ∨ m.mto = 63 then { s with castlek := false } else s
  let s :=
    if m.flag = some .castle then
      if m.castle = some 'K' then
        { s with board := setSq (setSq s.board 5 (some 'R')) 7 none }
      else if m.castle = some 'Q' then
        { s with board := setSq (setSq s.board 3 (some 'R')) 0 none }
      else if m.castle = some 'k' then
        { s with board := setSq (setSq s.board 61 (some 'r')) 63 none }
      else if m.castle = some 'q' then
        { s with board := setSq (setSq s.board 59 (some 'r')) 56 none }
      else s
    else s
  let s := { s with whiteToMove := ! s.whiteToMove }
  let s := if ! s.whiteToMove then { s with fullmove := s.fullmove + 1 } else s
  (s, undo)

/-- undoMove of the source, as a pure function (in JS it also reassigns the
castling object to a fresh copy of the one in the undo record). -/
def undoMove (s : State) (u : Undo) : State :=
  let m := u.move
  let s := { s with whiteToMove := ! s.whiteToMove }
  let s := if s.whiteToMove then { s with fullmove := s.fullmove - 1 } else s
  let s :=
    { s with enPassant := u.enPassant
             castleK := u.castleK, castleQ := u.castleQ
             castlek := u.castlek, castleq := u.castleq
             halfmove := u.halfmove }
  let s := { s with board := setSq (setSq s.board m.mfrom (some m.piece)) m.mto none }
  let s :=
    if m.promotion.isSome then
      { s with board := setSq s.board m.mfrom (some m.piece) }
    else s
  let s :=
    if m.flag = some .enpassant then
      let capIdx := if s.whiteToMove then m.mto + 8 else m.mto - 8
      { s with board := setSq s.board capIdx u.captured }
    else if m.flag = some .castle then
      if m.castle = some 'K' then
        { s with board := setSq (setSq s.board 7 (some 'R')) 5 none }
      else if m.castle = some 'Q' then
        { s with board := setSq (setSq s.board 0 (some 'R')) 3 none }
      else if m.castle = some 'k' then
        { s with board := setSq (setSq s.board 63 (some 'r')) 61 none }
      else if m.castle = some 'q' then
        { s with board := setSq (setSq s.board 56 (some 'r')) 59 none }
      else s
    else s
  let s :=
    if m.capture.isSome ∧ m.flag ≠ some .enpassant then
      { s with board := setSq s.board m.mto u.captured }
    else s
  s

/-- The legality filter loop of generateMoves.  The state is threaded through
because the paired makeMove and undoMove are not always mutual inverses in
the source (the en-passant restore), so later iterations can observe the
residue of earlier ones, exactly as in JS. -/
def legalFilterLoop (sideIsWhite : Bool) :
    State → List Move → List Move → State × List Move
  | s, [], legal => (s, legal)
  | s, m :: rest, legal =>
    let mu := makeMove s m
    let kingIdx := findKing mu.1 sideIsWhite
    let inCheck := isSquareAttacked mu.1 kingIdx (! mu.1.whiteToMove)
    let s2 := undoMove mu.1 mu.2
    legalFilterLoop sideIsWhite s2 rest (if inCheck then legal else legal ++ [m])

/-- generateMoves of the source, with the state it leaves behind. -/
def generateMovesSt (s : State) : State × List Move :=
  legalFilterLoop s.whiteToMove s (pseudoMoves s) []

/-- The move list returned by generateMoves. -/
def generateMoves (s : State) : List Move := (generateMovesSt s).2

/-- PIECE_VALUES lookup with the JS || 0 fallback for unknown pieces. -/
def PIECE_VALUES (c : Char) : Int :=
  if c = 'p' then 100 else if c = 'n' then 320 else if c = 'b' then 330
  else if c = 'r' then 500 else if c = 'q' then 900 else if c = 'k' then 20000
  else 0

/-- positionalBonus of the source. -/
def positionalBonus (piece : Char) (idx : Nat) : Int :=
  let rank := idx / 8
  let file := idx % 8
  let bonus : Int := 0
  let bonus :=
    if piece.toLower = 'p' then
      bonus + (if piece = 'P' then (rank : Int) * 2 else ((7 : Int) - rank) * 2) +
      (if file = 3 ∨ file = 4 then 2 else 0)
    else bonus
  let bonus :=
    if piece.toLower = 'n' then
      bonus + (if 2 ≤ file ∧ file ≤ 5 ∧ 2 ≤ rank ∧ rank ≤ 5 then 10 else 0)
    else bonus
  let bonus :=
    if piece.toLower = 'b' then
      bonus + (if (file + rank) % 2 = 0 then 1 else 0)
    else bonus
  bonus

/-- evaluate of the source: signed material plus positional terms. -/
def evaluate (s : State) : Int :=
  (List.range 64).foldl
    (fun score i =>
      match (s.board.get? i).getD none with
      | none => score
      | some piece =>
        let value := PIECE_VALUES piece.toLower
        let positional := positionalBonus piece i
        score + (if piece = piece.toUpper then 1 else -1) * (value + positional))
    0

/-- JS numbers extended with the two infinities used as search sentinels. -/
inductive EInt
  | negInf
  | fin (n : Int)
  | posInf
deriving DecidableEq, Repr

/-- Comparison a less-or-equal b on EInt. -/
def EInt.leB : EInt → EInt → Bool
  | .negInf, _ => true
  | _, .posInf => true
  | .fin a, .fin b => a ≤ b
  | .posInf, _ => false
  | .fin _, .negInf => false

/-- Strict comparison a less-than b (never fed a NaN). -/
def EInt.ltB (a b : EInt) : Bool := ! EInt.leB b a

/-- Math.max on EInt. -/
def EInt.maxE (a b : EInt) : EInt := if EInt.leB a b then b else a

/-- Math.min on EInt. -/
def EInt.minE (a b : EInt) : EInt := if EInt.leB b a then b else a

/-- The fin payload, defaulting to 0 (root search scores are always fin). -/
def EInt.toIntD : EInt → Int
  | .fin n => n
  | _ => 0

/-- The White (maximizing) move loop of search, threading the state and
breaking out once beta is not above alpha; recCall is the recursive search
at depth - 1. -/
def searchLoopW (recCall : State → EInt → EInt → State × EInt × Option Move) :
    State → List Move → EInt → EInt → EInt → Option Move →
    State × EInt × Option Move
  | s, [], _, _, best, bm => (s, best, bm)
  | s, m :: rest, alpha, beta, best, bm =>
    let mu := makeMove s m
    let r := recCall mu.1 alpha beta
    let s2 := undoMove r.1 mu.2
    let score := r.2.1
    let best2 := if EInt.ltB best score then score else best
    let bm2 := if EInt.ltB best score then some m else bm
    let alpha2 := EInt.maxE alpha score
    if EInt.leB beta alpha2 then (s2, best2, bm2)
    else searchLoopW recCall s2 rest alpha2 beta best2 bm2

/-- The Black (minimizing) move loop of search. -/
def searchLoopB (recCall : State → EInt → EInt → State × EInt × Option Move) :
    State → List Move → EInt → EInt → EInt → Option Move →
    State × EInt × Option Move
  | s, [], _, _, best, bm => (s, best, bm)
  | s, m :: rest, alpha, beta, best, bm =>
    let mu := makeMove s m
    let r := recCall mu.1 alpha beta
    let s2 := undoMove r.1 mu.2
    let score := r.2.1
    let best2 := if EInt.ltB score best then score else best
    let bm2 := if EInt.ltB score best then some m else bm
    let beta2 := EInt.minE beta score
    if EInt.leB beta2 alpha then (s2, best2, bm2)
    else searchLoopB recCall s2 rest alpha beta2 best2 bm2

/-- search of the source, with the depth as a natural number and the state
threaded (see legalFilterLoop).  Returns the state the search leaves behind,
the score and the best move. -/
def search : Nat → State → EInt → EInt → State × EInt × Option Move
  | 0, s, _, _ => (s, EInt.fin (evaluate s), none)
  | d + 1, s, alpha, beta =>
    let gm := generateMovesSt s
    let s1 := gm.1
    if gm.2 = [] then
      let kingIdx := findKing s1 s1.whiteToMove
      let inCheck := isSquareAttacked s1 kingIdx (! s1.whiteToMove)
      if inCheck then
        (s1, EInt.fin (if s1.whiteToMove then -100000 + ((d : Int) + 1)
                       else 100000 - ((d : Int) + 1)), none)
      else (s1, EInt.fin 0, none)
    else if s1.whiteToMove then
      searchLoopW (search d) s1 gm.2 alpha beta EInt.negInf none
    else
      searchLoopB (search d) s1 gm.2 alpha beta EInt.posInf none

/-- cloneState of the source: a fresh state object with a sliced board array
and a spread castling object; as a value it is the identity (the heap model
below captures the absence of sharing). -/
def cloneState (s : State) : State :=
  { board := s.board, whiteToMove := s.whiteToMove
    castleK := s.castleK, castleQ := s.castleQ
    castlek := s.castlek, castleq := s.castleq
    enPassant := s.enPassant, halfmove := s.halfmove, fullmove := s.fullmove }

/-- moveToAlgebraic of the source: coordinate notation with =X for
promotions. -/
def moveToAlgebraic (m : Move) : List Char :=
  indexToSquare m.mfrom ++ indexToSquare m.mto ++
  (match m.promotion with
   | some p => '=' :: [p.toUpper]
   | none => [])

/-- The JS expression x || d for a numeric option: absent and 0 (the falsy
numbers in scope here) fall back to the default. -/
def jsOrDepth (o : Option Int) (d : Int) : Int :=
  match o with
  | none => d
  | some v => if v = 0 then d else v

/-- The record returned by analyzePosition (evaluation is score / 100 as an
exact rational; JS computes the same value as a double). -/
structure AnalysisResult where
  bestMove : Option (List Char)
  evaluation : ℚ
  depth : Int
  moveObject : Option Move
deriving DecidableEq, Repr

/-- analyzePosition of the source: parse, clone, search at the requested or
default depth, package the result; none models the TypeError a malformed
text throws out of fenToState. -/
def analyzePosition (fen : List Char) (depthOpt : Option Int) :
    Option AnalysisResult :=
  let depth := jsOrDepth depthOpt 3
  match fenToState fen with
  | none => none
  | some state =>
    let cloned := cloneState state
    let res := search depth.toNat cloned EInt.negInf EInt.posInf
    some { bestMove := res.2.2.map moveToAlgebraic
           evaluation := (res.2.1.toIntD : ℚ) / 100
           depth := depth
           moveObject := res.2.2 }

/-!
Heap model for the frame claim about cloneState: a state object holds its
scalar fields inline and references a board array and a castling object by
index into a heap.  cloneState allocates a fresh board (slice), a fresh
castling object (spread) and a fresh state object; makeMove mutates through
the references of its state object; undoMove additionally rebinds the
castling reference to a freshly allocated copy of the undo flags (the object
spread assignment in the source).
-/

/-- The castling object {K, Q, k, q} as a heap value. -/
structure Cast4 where
  cK : Bool
  cQ : Bool
  ck : Bool
  cq : Bool
deriving DecidableEq, Repr

/-- A state object on the heap: scalars inline, board and castling by
reference. -/
structure HeapStateObj where
  whiteToMove : Bool
  enPassant : Int
  halfmove : Int
  fullmove : Int
  boardRef : Nat
  castRef : Nat
deriving DecidableEq, Repr

/-- The heap: arrays, castling objects and state objects, addressed by
position in their list. -/
structure Heap where
  boards : List Board
  casts : List Cast4
  states : List HeapStateObj
deriving DecidableEq, Repr

/-- Reading the full value of the state object at reference r. -/
def readState (h : Heap) (r : Nat) : Option State :=
  match h.states[r]? with
  | none => none
  | some o =>
    match h.boards[o.boardRef]?, h.casts[o.castRef]? with
    | some b, some c =>
      some { board := b, whiteToMove := o.whiteToMove
             castleK := c.cK, castleQ := c.cQ, castlek := c.ck, castleq := c.cq
             enPassant := o.enPassant, halfmove := o.halfmove
             fullmove := o.fullmove }
    | _, _ => none

/-- cloneState on the heap: fresh board array (state.board.slice()), fresh
castling object (the object spread), fresh state object; on a dangling
reference (impossible in the source) the heap is returned unchanged. -/
def cloneStateH (h : Heap) (r : Nat) : Heap × Nat :=
  match readState h r with
  | none => (h, 0)
  | some s =>
    ({ boards := h.boards ++ [s.board]
       casts := h.casts ++ [⟨s.castleK, s.castleQ, s.castlek, s.castleq⟩]
       states := h.states ++
         [{ whiteToMove := s.whiteToMove, enPassant := s.enPassant
            halfmove := s.halfmove, fullmove := s.fullmove
            boardRef := h.boards.length, castRef := h.casts.length }] },
     h.states.length)

/-- makeMove through the references of the state object at r: the board
contents and castling fields change in place, the scalar fields change on
the state object, no reference changes. -/
def makeMoveH (h : Heap) (r : Nat) (m : Move) : Heap :=
  match h.states[r]? with
  | none => h
  | some o =>
    match h.boards[o.boardRef]?, h.casts[o.castRef]? with
    | some b, some c =>
      let s : State :=
        { board := b, whiteToMove := o.whiteToMove
          castleK := c.cK, castleQ := c.cQ, castlek := c.ck, castleq := c.cq
          enPassant := o.enPassant, halfmove := o.halfmove, fullmove := o.fullmove }
      let s2 := (EngineCore.makeMove s m).1
      { boards := h.boards.set o.boardRef s2.board
        casts := h.casts.set o.castRef ⟨s2.castleK, s2.castleQ, s2.castlek, s2.castleq⟩
        states := h.states.set r
          { o with whiteToMove := s2.whiteToMove, enPassant := s2.enPassant
                   halfmove := s2.halfmove, fullmove := s2.fullmove } }
    | _, _ => h

/-- undoMove through the references at r; the assignment
state.castling = spread of undo.castling allocates a fresh castling object,
so the castling reference of the state object moves to a new index. -/
def undoMoveH (h : Heap) (r : Nat) (u : Undo) : Heap :=
  match h.states[r]? with
  | none => h
  | some o =>
    match h.boards[o.boardRef]?, h.casts[o.castRef]? with
    | some b, some c =>
      let s : State :=
        { board := b, whiteToMove := o.whiteToMove
          castleK := c.cK, castleQ := c.cQ, castlek := c.ck, castleq := c.cq
          enPassant := o.enPassant, halfmove := o.halfmove, fullmove := o.fullmove }
      let s2 := EngineCore.undoMove s u
      { boards := h.boards.set o.boardRef s2.board
        casts := h.casts ++ [⟨s2.castleK, s2.castleQ, s2.castlek, s2.castleq⟩]
        states := h.states.set r
          { o with whiteToMove := s2.whiteToMove, enPassant := s2.enPassant
                   halfmove := s2.halfmove, fullmove := s2.fullmove
                   castRef := h.casts.length } }
    | _, _ => h

/-- One mutating engine call on a state object. -/
inductive HOp
  | make (m : Move)
  | undo (u : Undo)
deriving DecidableEq, Repr

/-- Apply one call to the state object at r. -/
def applyOp (h : Heap) (r : Nat) : HOp → Heap
  | .make m => makeMoveH h r m
  | .undo u => undoMoveH h r u

/-- Apply a whole sequence of calls to the state object at r. -/
def applyOps (h : Heap) (r : Nat) : List HOp → Heap
  | [] => h
  | op :: ops => applyOps (applyOp h r op) r ops

/-- The isolation invariant: relative to the baseline heap h0, the state
object at sR and the board and castling objects it references are untouched
in h, and the state object at cR (the clone) references neither of them. -/
def protects (h0 h : Heap) (sR cR : Nat) (so : HeapStateObj) : Prop :=
  h.states[sR]? = some so ∧
  h.boards[so.boardRef]? = h0.boards[so.boardRef]? ∧
  h.casts[so.castRef]? = h0.casts[so.castRef]? ∧
  (∀ co, h.states[cR]? = some co →
    co.boardRef ≠ so.boardRef ∧ co.castRef ≠ so.castRef)

end EngineCore

/-- The ChessEngine wrapper class of the second source file: it stores a
configured depth (constructor option, default 3). -/
structure ChessEngine where
  depth : Int
deriving DecidableEq, Repr

/-- new ChessEngine(options): depth is options.depth || 3. -/
def ChessEngine.new (depthOpt : Option Int) : ChessEngine :=
  ⟨EngineCore.jsOrDepth depthOpt 3⟩

/-- ChessEngine.prototype.analyzePosition: a falsy per-call depth falls back
to the depth stored by the constructor, then EngineCore.analyzePosition runs
with that (always nonzero) depth. -/
def ChessEngine.analyzePosition (e : ChessEngine) (fen : List Char)
    (depthOpt : Option Int) : Option EngineCore.AnalysisResult :=
  let depth := EngineCore.jsOrDepth depthOpt e.depth
  (EngineCore.analyzePosition fen (some depth)).map
    (fun r =>
      { bestMove := r.bestMove, evaluation := r.evaluation
        depth := r.depth, moveObject := r.moveObject })

namespace EngineCore

/-!
Predicates describing the image of the parser, used by the round-trip
development, and the row writer that characterizes the rank parse of a
serialized rank.
-/

/-- A character that can sit on a parsed board: produced by the non-digit,
non-whitespace branch of the rank loop of fenToState, from a slash-split
group. -/
def validPiece (c : Char) : Prop :=
  c.isDigit = false ∧ isJsWs c = false ∧ c ≠ '/'

/-- Boards in the image of fenToState: 64 slots, every occupied slot holding
a valid piece character. -/
def boardOK (b : Board) : Prop :=
  b.length = 64 ∧ ∀ oc ∈ b, ∀ c, oc = some c → validPiece c

/-- En-passant indices (other than those that serialize to an unparseable
token) occurring in parser-produced states: -1, -8, or a value in 0..71. -/
def epOK (ep : Int) : Prop :=
  ep = -1 ∨ ep = -8 ∨ (0 ≤ ep ∧ ep ≤ 71)

/-- Writing the occupied slots of a row onto the board starting at file k of
row r: the effect of the rank parse loop on a serialized rank. -/
def placeRow (b : Board) (r : Nat) : Nat → List (Option Char) → Board
  | _, [] => b
  | k, none :: rest => placeRow b r (k + 1) rest
  | k, some c :: rest => placeRow (b.set (8 * r + k) (some c)) r (k + 1) rest

/-!
Concrete fixtures used by the claim theorems.
-/

/-- An impossible placeholder state (empty board) for Option defaults. -/
def junkState : State :=
  { board := [], whiteToMove := true, castleK := false, castleQ := false
    castlek := false, castleq := false, enPassant := -1, halfmove := 0
    fullmove := 0 }

/-- The all-empty 64-slot board. -/
def emptyBoard : Board := List.replicate 64 none

/-- Put piece c on square i (a fixture helper). -/
def bset (b : Board) (i : Nat) (c : Char) : Board := b.set i (some c)

/-- The standard starting position text. -/
def startFEN : String := "rnbqkbnr/pppppppp/8/8/8/8/PPPPPPPP/RNBQKBNR w KQkq - 0 1"

/-- The parsed standard starting position. -/
def startState : State := (fenToState startFEN.toList).getD junkState

/-- C1 fixture: White to move and in check from the rook on e8; the pawn
move a2a3 does not address the check.  Reachable by legal play (both sides
have bare material; the rook just moved to e8 giving check). -/
def fenC1 : String := "k3r3/8/8/8/8/8/P7/4K3 w - - 0 1"

def stateC1 : State :=
  { board := bset (bset (bset (bset emptyBoard 4 'K') 8 'P') 56 'k') 60 'r'
    whiteToMove := true, castleK := false, castleQ := false
    castlek := false, castleq := false, enPassant := -1, halfmove := 0
    fullmove := 1 }

/-- The pawn push a2a3 (a2 = 8, a3 = 16). -/
def moveC1 : Move := { mfrom := 8, mto := 16, piece := 'P' }

/-- C2 fixture: the en-passant capture e5xd6 is legal (Black just played
d7d5). -/
def fenC2 : String := "4k3/8/8/3pP3/8/8/8/4K3 w - d6 0 3"

def stateC2 : State :=
  { board := bset (bset (bset (bset emptyBoard 4 'K') 35 'p') 36 'P') 60 'k'
    whiteToMove := true, castleK := false, castleQ := false
    castlek := false, castleq := false, enPassant := 43, halfmove := 0
    fullmove := 3 }

/-- The en-passant capture e5 to d6 (e5 = 36, d6 = 43), as generated. -/
def moveC2 : Move :=
  { mfrom := 36, mto := 43, piece := 'P', capture := some 'p'
    flag := some .enpassant }

/-- C5 fixture: the stalemate test position of the spec (Black to move, no
real legal moves, black king not attacked). -/
def fenC5 : String := "7k/5Q2/6K1/8/8/8/8/8 b - - 0 1"

def stateC5 : State :=
  { board := bset (bset (bset emptyBoard 46 'K') 53 'Q') 63 'k'
    whiteToMove := false, castleK := false, castleQ := false
    castlek := false, castleq := false, enPassant := -1, halfmove := 0
    fullmove := 1 }

/-- C7 fixture: a White pawn on a7 about to promote without capturing, with
a nonzero halfmove clock. -/
def stateC7 : State :=
  { board := bset (bset (bset emptyBoard 4 'K') 48 'P') 63 'k'
    whiteToMove := true, castleK := false, castleQ := false
    castlek := false, castleq := false, enPassant := -1, halfmove := 5
    fullmove := 20 }

/-- The non-capturing promotion a7a8=Q (a7 = 48, a8 = 56), first of the four
promotion moves the generator produces. -/
def moveC7 : Move :=
  { mfrom := 48, mto := 56, piece := 'P', promotion := some 'Q'
    flag := some .promotion }

/-- C8 fixture: White to move; the engine sees zero legal moves (the king,
rook, bishop and e2 pawn are boxed in, and the two pawn captures are
rejected because the rook on g1 attacks h1, the square of the own king,
which is what the buggy filter tests) and the white king is attacked by the
knight on g3, so the search takes its checkmate branch at any depth above
zero. -/
def stateC8 : State :=
  { board := bset (bset (bset (bset (bset (bset (bset (bset (bset (bset
      emptyBoard 7 'K') 6 'R') 5 'B') 12 'P') 14 'P') 15 'P') 20 'p') 22 'n')
      23 'p') 56 'k'
    whiteToMove := true, castleK := false, castleQ := false
    castlek := false, castleq := false, enPassant := -1, halfmove := 0
    fullmove := 1 }

/-- C3 counterexample input: the en-passant field i0 is accepted by
fenToState (index -9) but serializes to the unparseable token NaN. -/
def fenC3 : String := "8/8/8/8/8/8/8/8 w - i0 0 1"

/-- C4 fixtures: malformed texts in each category of the claim, all of which
fenToState accepts. -/
def fenC4letter : String := "x7/8/8/8/8/8/8/8 w - - 0 1"

def fenC4ranksum : String := "9/8/8/8/8/8/8/8 w - - 0 1"

def fenC4castling : String := "8/8/8/8/8/8/8/8 w XYZ - 0 1"

def fenC4ep : String := "8/8/8/8/8/8/8/8 w - e9 0 1"

def fenC4fields : String := "8/8/8/8/8/8/8/8 w - -"

/-- The all-empty position (any depth search returns immediately: no pieces,
zero moves, no king found, no attacker detected). -/
def emptyFEN : String := "8/8/8/8/8/8/8/8 w - - 0 1"

/-- The Black reply a7a6 (a7 = 48, a6 = 40) used by the C6 theorem. -/
def moveC6b : Move := { mfrom := 48, mto := 40, piece := 'p' }

/-- A one-object heap used by the C9 witness. -/
def heapW : Heap :=
  { boards := [[none]]
    casts := [⟨false, false, false, false⟩]
    states := [⟨true, -1, 0, 1, 0, 0⟩] }

/-- The state value stored in heapW. -/
def stateW : State :=
  { board := [none], whiteToMove := true, castleK := false, castleQ := false
    castlek := false, castleq := false, enPassant := -1, halfmove := 0
    fullmove := 1 }

/-- A makeMove followed by an undoMove, used by the C9 witness. -/
def opsW : List HOp :=
  [HOp.make { mfrom := 0, mto := 1, piece := 'P' },
   HOp.undo { move := { mfrom := 0, mto := 1, piece := 'P' }, captured := none
              enPassant := -1, castleK := false, castleQ := false
              castlek := false, castleq := false, halfmove := 0, fullmove := 1 }]

end EngineCore

open EngineCore

set_option maxRecDepth 1000000 in
/-- Claim C1: the legality filter of generateMoves tests whether the square
of the moving side's king is attacked by the moving side's own color (after
makeMove flips whiteToMove, the filter negates it back), instead of by the
opponent.  In the fixture position White is in check from the rook on e8,
yet the pawn push a2a3 is returned; applying it leaves the white king
attacked by Black.  The same bug makes the standard starting position return
an empty legal-move list (the queen on d1 counts as an attacker of the
adjacent own king), where the spec requires 20 moves. -/
theorem C1_filter_returns_self_check_move :
    fenToState fenC1.toList = some stateC1 ∧
    moveC1 ∈ generateMoves stateC1 ∧
    isSquareAttacked (makeMove stateC1 moveC1).1
      (findKing (makeMove stateC1 moveC1).1 true) false = true ∧
    fenToState startFEN.toList = some startState ∧
    generateMoves startState = [] := by
  refine ⟨by decide, by decide, by decide, rfl, by decide⟩

set_option maxRecDepth 1000000 in
/-- Claim C2: undoMove reverses the side condition when restoring the pawn
captured en passant (makeMove removes it from to - 8 for White, undoMove
puts it back on to + 8), so revert after apply does not restore the
position: the captured pawn disappears from d5 (35) and reappears on d7
(51).  The en-passant capture is a move generateMoves returns for the
fixture. -/
theorem C2_enpassant_undo_not_inverse :
    fenToState fenC2.toList = some stateC2 ∧
    moveC2 ∈ generateMoves stateC2 ∧
    undoMove (makeMove stateC2 moveC2).1 (makeMove stateC2 moveC2).2 ≠ stateC2 ∧
    getSq stateC2.board 35 = some 'p' ∧ getSq stateC2.board 51 = none ∧
    getSq (undoMove (makeMove stateC2 moveC2).1 (makeMove stateC2 moveC2).2).board 35
      = none ∧
    getSq (undoMove (makeMove stateC2 moveC2).1 (makeMove stateC2 moveC2).2).board 51
      = some 'p' := by
  refine ⟨by decide, by decide, by decide, by decide, by decide, by decide, by decide⟩

set_option maxRecDepth 100000 in
/-- Claim C4: fenToState performs no validation: an unknown piece letter is
stored on the board, a rank whose digits sum to 9 is accepted, an invalid
castling token is silently ignored, an invalid en-passant token becomes an
off-board index, and a text with only four fields is accepted with the
defaults, in every case returning a Position instead of failing. -/
theorem C4_malformed_texts_accepted :
    (fenToState fenC4letter.toList).isSome = true ∧
    getSq ((fenToState fenC4letter.toList).getD junkState).board 56 = some 'x' ∧
    (fenToState fenC4ranksum.toList).isSome = true ∧
    (fenToState fenC4castling.toList).isSome = true ∧
    ((fenToState fenC4ep.toList).getD junkState).enPassant = 68 ∧
    (fenToState fenC4fields.toList).isSome = true ∧
    ((fenToState fenC4fields.toList).getD junkState).halfmove = 0 ∧
    ((fenToState fenC4fields.toList).getD junkState).fullmove = 1 := by
  refine ⟨by decide, by decide, by decide, by decide, by decide, by decide,
    by decide, by decide⟩

set_option maxRecDepth 400000 in
/-- Claim C5: in the stalemate test position of the spec the engine does not
see stalemate: the buggy legality filter keeps all three black king moves
(no black piece attacks the black king), so the search returns the static
material score 900 (the white queen) instead of 0, already at depth 1; at
depth 0 the search returns the static evaluation 900 by construction. -/
theorem C5_stalemate_position_not_scored_zero :
    fenToState fenC5.toList = some stateC5 ∧
    (generateMoves stateC5).length = 3 ∧
    (search 1 stateC5 EInt.negInf EInt.posInf).2.1 = EInt.fin 900 ∧
    (search 0 stateC5 EInt.negInf EInt.posInf).2.1 = EInt.fin 900 := by
  refine ⟨by decide, by decide, by decide, by decide⟩

set_option maxRecDepth 100000 in
/-- Claim C6: makeMove increments the fullmove counter when the flipped
side-to-move is Black, that is after a White move, and leaves it unchanged
after a Black move: from the starting position, a2a3 takes the counter from
1 to 2, and the black reply a7a6 leaves it at 2. -/
theorem C6_fullmove_incremented_after_white :
    startState.whiteToMove = true ∧ startState.fullmove = 1 ∧
    (makeMove startState moveC1).1.fullmove = 2 ∧
    (makeMove startState moveC1).1.whiteToMove = false ∧
    (makeMove (makeMove startState moveC1).1 moveC6b).1.fullmove = 2 := by
  refine ⟨by decide, by decide, by decide, by decide, by decide⟩

set_option maxRecDepth 100000 in
/-- Claim C7: makeMove resets the halfmove clock on a pawn move by testing
movingPiece, which for a promotion is the promoted piece, so a non-capturing
promotion leaves the clock incremented instead of zero: promoting a7a8=Q
with clock 5 yields clock 6.  The promotion is a move generateMoves
returns. -/
theorem C7_promotion_does_not_reset_halfmove :
    moveC7 ∈ generateMoves stateC7 ∧
    stateC7.halfmove = 5 ∧
    (makeMove stateC7 moveC7).1.halfmove = 6 := by
  refine ⟨by decide, by decide, by decide⟩

set_option maxRecDepth 400000 in
/-- Claim C8: in the checkmate branch the score is minus 100000 plus the
remaining depth for a mated White.  A mate reached in fewer moves from the
root is encountered at a larger remaining depth, so it scores strictly
higher, that is strictly worse for Black, the mating and minimizing side:
the fixture mate scores -99997 at remaining depth 3 but -99999 at remaining
depth 1, so the search prefers the slower mate, contradicting the claim. -/
theorem C8_faster_mate_scores_worse_for_mating_side :
    generateMoves stateC8 = [] ∧
    isSquareAttacked stateC8 (findKing stateC8 stateC8.whiteToMove)
      (! stateC8.whiteToMove) = true ∧
    (search 3 stateC8 EInt.negInf EInt.posInf).2.1 = EInt.fin (-100000 + 3) ∧
    (search 1 stateC8 EInt.negInf EInt.posInf).2.1 = EInt.fin (-100000 + 1) ∧
    (-100000 + 1 : Int) < -100000 + 3 := by
  refine ⟨by decide, by decide, by decide, by decide, by decide⟩

set_option maxRecDepth 100000 in
/-- Claim C10 counterexample: an engine constructed with depth 5 and called
with the falsy depth 0 falls back to its configured depth, not to 3: the
returned depth field is 5. -/
theorem C10_ctor_depth_overrides_default :
    ((ChessEngine.new (some 5)).analyzePosition emptyFEN.toList (some 0)).map
      (fun r => r.depth) = some 5 ∧ (5 : Int) ≠ 3 := by
  refine ⟨by decide, by decide⟩

/-- The depth field of every analyzePosition result is the effective depth
the facade computed from its option. -/
theorem analyzePosition_depth_eq (fen : List Char) (z : Option Int)
    (r : AnalysisResult) (hr : EngineCore.analyzePosition fen z = some r) :
    r.depth = jsOrDepth z 3 := by
  revert hr
  cases hfs : fenToState fen with
  | none => intro hr; simp [EngineCore.analyzePosition, hfs] at hr
  | some st =>
    intro hr
    simp only [EngineCore.analyzePosition, hfs, Option.some.injEq] at hr
    rw [← hr]

/-- The result record rebuilt field by field in the ChessEngine wrapper is
the record itself. -/
theorem analyzePosition_wrap_eq (fen : List Char) (z : Option Int) :
    (EngineCore.analyzePosition fen z).map
      (fun r => ({ bestMove := r.bestMove, evaluation := r.evaluation
                   depth := r.depth, moveObject := r.moveObject } :
                   AnalysisResult)) = EngineCore.analyzePosition fen z := by
  cases EngineCore.analyzePosition fen z with
  | none => rfl
  | some r => rfl

/-- Claim C10 amended: a falsy depth option (absent or 0) makes
EngineCore.analyzePosition run at the default depth 3 and report depth 3;
ChessEngine.analyzePosition falls back to the depth fixed by its
constructor, which is 3 for a default-constructed engine, so a depth-0
search is never performed through either facade. -/
theorem C10_falsy_depth_falls_back :
    ∀ (fen : List Char) (d : Option Int), (d = none ∨ d = some 0) →
      (EngineCore.analyzePosition fen d = EngineCore.analyzePosition fen (some 3) ∧
       (∀ r, EngineCore.analyzePosition fen d = some r → r.depth = 3) ∧
       (∀ cd : Option Int,
          (ChessEngine.new cd).analyzePosition fen d =
            EngineCore.analyzePosition fen (some (jsOrDepth cd 3))) ∧
       (ChessEngine.new none).analyzePosition fen d =
         EngineCore.analyzePosition fen (some 3)) := by
  intro fen d hd
  have hdep : jsOrDepth d 3 = 3 := by
    rcases hd with h | h <;> simp [h, jsOrDepth]
  have hcore : EngineCore.analyzePosition fen d =
      EngineCore.analyzePosition fen (some 3) := by
    rcases hd with h | h <;> subst h <;> rfl
  refine ⟨hcore, ?_, ?_, ?_⟩
  · intro r hr
    rw [hcore] at hr
    rw [analyzePosition_depth_eq fen (some 3) r hr]
    simp [jsOrDepth]
  · intro cd
    show (EngineCore.analyzePosition fen
      (some (jsOrDepth d (ChessEngine.new cd).depth))).map _ = _
    have hd2 : jsOrDepth d (ChessEngine.new cd).depth = jsOrDepth cd 3 := by
      rcases hd with h | h <;> simp [h, jsOrDepth, ChessEngine.new]
    rw [hd2, analyzePosition_wrap_eq]
  · show (EngineCore.analyzePosition fen
      (some (jsOrDepth d (ChessEngine.new none).depth))).map _ = _
    have hd2 : jsOrDepth d (ChessEngine.new none).depth = 3 := by
      rcases hd with h | h <;> simp [h, jsOrDepth, ChessEngine.new]
    rw [hd2, analyzePosition_wrap_eq]

/-- Witness for C10_falsy_depth_falls_back at the empty position and depth
option 0. -/
theorem C10_falsy_depth_falls_back_witness :
    ((some 0 = (none : Option Int) ∨ (some 0 : Option Int) = some 0)) ∧
    (EngineCore.analyzePosition emptyFEN.toList (some 0) =
      EngineCore.analyzePosition emptyFEN.toList (some 3) ∧
     (∀ r, EngineCore.analyzePosition emptyFEN.toList (some 0) = some r →
        r.depth = 3) ∧
     (∀ cd : Option Int,
        (ChessEngine.new cd).analyzePosition emptyFEN.toList (some 0) =
          EngineCore.analyzePosition emptyFEN.toList (some (jsOrDepth cd 3))) ∧
     (ChessEngine.new none).analyzePosition emptyFEN.toList (some 0) =
       EngineCore.analyzePosition emptyFEN.toList (some 3)) :=
  ⟨Or.inr rfl, C10_falsy_depth_falls_back emptyFEN.toList (some 0) (Or.inr rfl)⟩


/-- Unpacking a successful readState into its heap components. -/
theorem readState_some_unpack (h : Heap) (r : Nat) (sv : State)
    (hr : readState h r = some sv) :
    ∃ so, h.states[r]? = some so ∧
      h.boards[so.boardRef]? = some sv.board ∧
      h.casts[so.castRef]? =
        some ⟨sv.castleK, sv.castleQ, sv.castlek, sv.castleq⟩ ∧
      so.whiteToMove = sv.whiteToMove ∧ so.enPassant = sv.enPassant ∧
      so.halfmove = sv.halfmove ∧ so.fullmove = sv.fullmove := by
  cases hso : h.states[r]? with
  | none => simp [readState, hso] at hr
  | some so =>
    cases hb : h.boards[so.boardRef]? with
    | none => simp [readState, hso, hb] at hr
    | some b =>
      cases hc : h.casts[so.castRef]? with
      | none => simp [readState, hso, hb, hc] at hr
      | some c =>
        simp only [readState, hso, hb, hc, Option.some.injEq] at hr
        subst hr
        exact ⟨so, rfl, hb, by rw [hc], rfl, rfl, rfl, rfl⟩

/-- One mutating call through the clone reference preserves the isolation
invariant. -/
theorem protects_applyOp (h0 h : Heap) (sR cR : Nat) (so : HeapStateObj)
    (hne : sR ≠ cR)
    (hb0 : ∃ b0, h0.boards[so.boardRef]? = some b0)
    (hc0 : ∃ c0, h0.casts[so.castRef]? = some c0)
    (hp : protects h0 h sR cR so) (op : HOp) :
    protects h0 (applyOp h cR op) sR cR so := by
  obtain ⟨h1, h2, h3, h4⟩ := hp
  obtain ⟨b0, hb0⟩ := hb0
  obtain ⟨c0, hc0⟩ := hc0
  have hclt : so.castRef < h.casts.length := by
    have hx : h.casts[so.castRef]? = some c0 := by rw [h3, hc0]
    exact (List.getElem?_eq_some.mp hx).1
  cases op with
  | make m =>
    show protects h0 (makeMoveH h cR m) sR cR so
    cases hco : h.states[cR]? with
    | none =>
      have hh : makeMoveH h cR m = h := by simp [makeMoveH, hco]
      rw [hh]; exact ⟨h1, h2, h3, h4⟩
    | some co =>
      obtain ⟨hbne, hcne⟩ := h4 co hco
      cases hcb : h.boards[co.boardRef]? with
      | none =>
        have hh : makeMoveH h cR m = h := by simp [makeMoveH, hco, hcb]
        rw [hh]; exact ⟨h1, h2, h3, h4⟩
      | some cb =>
        cases hcc : h.casts[co.castRef]? with
        | none =>
          have hh : makeMoveH h cR m = h := by simp [makeMoveH, hco, hcb, hcc]
          rw [hh]; exact ⟨h1, h2, h3, h4⟩
        | some cc =>
          unfold protects
          simp only [makeMoveH, hco, hcb, hcc]
          refine ⟨?_, ?_, ?_, ?_⟩
          · rw [List.getElem?_set_ne (Ne.symm hne)]; exact h1
          · rw [List.getElem?_set_ne hbne]; exact h2
          · rw [List.getElem?_set_ne hcne]; exact h3
          · intro co' hco'
            rw [List.getElem?_set_self', hco] at hco'
            simp only [Option.map_eq_map, Option.map_some', Option.some.injEq, Function.const_apply] at hco'
            rw [← hco']
            exact ⟨hbne, hcne⟩
  | undo u =>
    show protects h0 (undoMoveH h cR u) sR cR so
    cases hco : h.states[cR]? with
    | none =>
      have hh : undoMoveH h cR u = h := by simp [undoMoveH, hco]
      rw [hh]; exact ⟨h1, h2, h3, h4⟩
    | some co =>
      obtain ⟨hbne, hcne⟩ := h4 co hco
      cases hcb : h.boards[co.boardRef]? with
      | none =>
        have hh : undoMoveH h cR u = h := by simp [undoMoveH, hco, hcb]
        rw [hh]; exact ⟨h1, h2, h3, h4⟩
      | some cb =>
        cases hcc : h.casts[co.castRef]? with
        | none =>
          have hh : undoMoveH h cR u = h := by simp [undoMoveH, hco, hcb, hcc]
          rw [hh]; exact ⟨h1, h2, h3, h4⟩
        | some cc =>
          unfold protects
          simp only [undoMoveH, hco, hcb, hcc]
          refine ⟨?_, ?_, ?_, ?_⟩
          · rw [List.getElem?_set_ne (Ne.symm hne)]; exact h1
          · rw [List.getElem?_set_ne hbne]; exact h2
          · rw [List.getElem?_append_left hclt]; exact h3
          · intro co' hco'
            rw [List.getElem?_set_self', hco] at hco'
            simp only [Option.map_eq_map, Option.map_some', Option.some.injEq, Function.const_apply] at hco'
            rw [← hco']
            exact ⟨hbne, Nat.ne_of_gt hclt⟩

/-- A whole sequence of mutating calls through the clone reference preserves
the isolation invariant. -/
theorem protects_applyOps (h0 : Heap) (sR cR : Nat) (so : HeapStateObj)
    (hne : sR ≠ cR)
    (hb0 : ∃ b0, h0.boards[so.boardRef]? = some b0)
    (hc0 : ∃ c0, h0.casts[so.castRef]? = some c0)
    (ops : List HOp) :
    ∀ h, protects h0 h sR cR so → protects h0 (applyOps h cR ops) sR cR so := by
  induction ops with
  | nil => intro h hp; exact hp
  | cons op ops ih =>
    intro h hp
    exact ih _ (protects_applyOp h0 h sR cR so hne hb0 hc0 hp op)

/-- Under the isolation invariant, reading the original state object gives
the same value as in the baseline heap. -/
theorem readState_of_protects (h0 h : Heap) (sR cR : Nat) (so : HeapStateObj)
    (hs0 : h0.states[sR]? = some so)
    (hp : protects h0 h sR cR so) :
    readState h sR = readState h0 sR := by
  obtain ⟨h1, h2, h3, _⟩ := hp
  simp only [readState, h1, h2, h3, hs0]

/-- Claim C9: cloneState allocates a fresh board array, castling object and
state object, so no sequence of makeMove and undoMove calls through the
clone changes any field readable through the original state reference, and
the clone initially reads back equal to the original. -/
theorem C9_cloneState_shares_no_mutable_state :
    ∀ (h : Heap) (sR : Nat) (sv : State) (ops : List HOp),
      readState h sR = some sv →
      readState (applyOps (cloneStateH h sR).1 (cloneStateH h sR).2 ops) sR
        = some sv ∧
      readState (cloneStateH h sR).1 (cloneStateH h sR).2 = some sv := by
  intro h sR sv ops hr
  obtain ⟨so, hso, hb, hc, hw, hep, hhm, hfm⟩ := readState_some_unpack h sR sv hr
  have hslt : sR < h.states.length := (List.getElem?_eq_some.mp hso).1
  have hblt : so.boardRef < h.boards.length := (List.getElem?_eq_some.mp hb).1
  have hclt : so.castRef < h.casts.length := (List.getElem?_eq_some.mp hc).1
  have hclone : cloneStateH h sR =
      ({ boards := h.boards ++ [sv.board]
         casts := h.casts ++ [⟨sv.castleK, sv.castleQ, sv.castlek, sv.castleq⟩]
         states := h.states ++
           [{ whiteToMove := sv.whiteToMove, enPassant := sv.enPassant
              halfmove := sv.halfmove, fullmove := sv.fullmove
              boardRef := h.boards.length, castRef := h.casts.length }] },
       h.states.length) := by
    simp only [cloneStateH, hr]
  have hne : sR ≠ h.states.length := Nat.ne_of_lt hslt
  have hinit : protects h (cloneStateH h sR).1 sR (cloneStateH h sR).2 so := by
    rw [hclone]
    refine ⟨?_, ?_, ?_, ?_⟩
    · rw [List.getElem?_append_left hslt]; exact hso
    · rw [List.getElem?_append_left hblt]
    · rw [List.getElem?_append_left hclt]
    · intro co hco
      rw [List.getElem?_concat_length] at hco
      simp only [Option.some.injEq] at hco
      rw [← hco]
      exact ⟨Nat.ne_of_gt hblt, Nat.ne_of_gt hclt⟩
  refine ⟨?_, ?_⟩
  · have hfin := protects_applyOps h sR (cloneStateH h sR).2 so
      (by rw [hclone]; exact hne) ⟨sv.board, hb⟩ ⟨_, hc⟩ ops _ hinit
    rw [readState_of_protects h _ sR (cloneStateH h sR).2 so hso hfin]
    exact hr
  · rw [hclone]
    simp only [readState, List.getElem?_concat_length]

/-- Witness for C9 at a concrete one-object heap and a concrete make and
undo pair through the clone. -/
theorem C9_cloneState_shares_no_mutable_state_witness :
    readState heapW 0 = some stateW ∧
    (readState (applyOps (cloneStateH heapW 0).1 (cloneStateH heapW 0).2 opsW) 0
       = some stateW ∧
     readState (cloneStateH heapW 0).1 (cloneStateH heapW 0).2 = some stateW) :=
  ⟨by decide, C9_cloneState_shares_no_mutable_state heapW 0 stateW opsW (by decide)⟩



/-- The decimal digit character of n < 10 is a digit with the expected code. -/
theorem digit_char_spec (n : Nat) (h : n < 10) :
    (Char.ofNat (48 + n)).isDigit = true ∧ (Char.ofNat (48 + n)).toNat = 48 + n := by
  interval_cases n <;> exact ⟨by decide, by decide⟩

/-- digitsVal of a snoc. -/
theorem digitsVal_append (ds : List Char) (c : Char) :
    digitsVal (ds ++ [c]) = 10 * digitsVal ds + (c.toNat - 48) := by
  unfold digitsVal
  rw [List.foldl_append]
  rfl

/-- The fueled digit emitter yields a nonempty all-digit list whose value is
the number, whenever the fuel dominates the number. -/
theorem natDigitsAux_spec : ∀ f n, n < f →
    natDigitsAux f n ≠ [] ∧ (∀ c ∈ natDigitsAux f n, c.isDigit = true) ∧
    digitsVal (natDigitsAux f n) = n := by
  intro f
  induction f with
  | zero => intro n h; exact absurd h (Nat.not_lt_zero n)
  | succ f ih =>
    intro n h
    by_cases h10 : n < 10
    · unfold natDigitsAux
      rw [if_pos h10]
      refine ⟨by simp, ?_, ?_⟩
      · intro c hc
        simp only [List.mem_singleton] at hc
        subst hc
        exact (digit_char_spec n h10).1
      · show digitsVal ([] ++ [Char.ofNat (48 + n)]) = n
        rw [digitsVal_append, (digit_char_spec n h10).2]
        simp [digitsVal]
    · unfold natDigitsAux
      rw [if_neg h10]
      have hdiv : n / 10 < f := by omega
      obtain ⟨hne, hdig, hval⟩ := ih (n / 10) hdiv
      refine ⟨by simp, ?_, ?_⟩
      · intro c hc
        rcases List.mem_append.mp hc with h1 | h1
        · exact hdig c h1
        · simp only [List.mem_singleton] at h1
          subst h1
          exact (digit_char_spec (n % 10) (by omega)).1
      · rw [digitsVal_append, hval, (digit_char_spec (n % 10) (by omega)).2]
        omega

/-- natDigits facts. -/
theorem natDigits_spec (n : Nat) :
    natDigits n ≠ [] ∧ (∀ c ∈ natDigits n, c.isDigit = true) ∧
    digitsVal (natDigits n) = n :=
  natDigitsAux_spec (n + 1) n (Nat.lt_succ_self n)

/-- A digit character is not one of the JS whitespace forms. -/
theorem not_ws_of_digit (c : Char) (h : c.isDigit = true) : isJsWs c = false := by
  cases hw : isJsWs c
  · rfl
  · exfalso
    unfold isJsWs at hw
    simp only [decide_eq_true_eq] at hw
    rcases hw with h1 | h1 | h1 | h1 | h1 | h1 | h1 | h1 <;> subst h1 <;>
      exact absurd h (by decide)

/-- A digit character is none of the special characters of the codec. -/
theorem digit_ne (c : Char) (h : c.isDigit = true) :
    c ≠ '-' ∧ c ≠ '+' ∧ c ≠ '/' ∧ c ≠ ' ' := by
  refine ⟨?_, ?_, ?_, ?_⟩ <;> rintro rfl <;> exact absurd h (by decide)



theorem parseSign_cons (c : Char) (t : List Char) :
    parseSign (c :: t) =
      if c = '-' then (-1, t) else if c = '+' then (1, t) else (1, c :: t) := rfl

/-- parseIntJS of an optional minus sign followed by digits. -/
theorem parseIntJS_signed_digits (sign : Bool) (ds : List Char) (hne : ds ≠ [])
    (hdig : ∀ c ∈ ds, c.isDigit = true)
    (hb : digitsVal ds ≤ 2 ^ 53) :
    parseIntJS (if sign then '-' :: ds else ds) =
      some (if sign then -(digitsVal ds : Int) else (digitsVal ds : Int)) := by
  obtain ⟨c, t, rfl⟩ : ∃ c t, ds = c :: t := by
    cases ds with
    | nil => exact absurd rfl hne
    | cons c t => exact ⟨c, t, rfl⟩
  have hc := hdig c (List.mem_cons_self c t)
  have hcne := digit_ne c hc
  have htake : (c :: t).takeWhile Char.isDigit = c :: t :=
    List.takeWhile_eq_self_iff.mpr hdig
  have hb2 : digitsVal (c :: t) ≤ 9007199254740992 := le_trans hb (by norm_num)
  cases sign with
  | false =>
    simp only [Bool.false_eq_true, if_false]
    unfold parseIntJS
    rw [List.dropWhile_cons_of_neg (by rw [not_ws_of_digit c hc]; simp)]
    rw [show parseSign (c :: t) = (1, c :: t) by
      rw [parseSign_cons, if_neg hcne.1, if_neg hcne.2.1]]
    simp [htake, hb2]
  | true =>
    simp only [if_true]
    unfold parseIntJS
    rw [List.dropWhile_cons_of_neg (by decide)]
    rw [show parseSign ('-' :: c :: t) = (-1, c :: t) by
      rw [parseSign_cons, if_pos rfl]]
    simp [htake, hb2]



/-- parseIntJS inverts the JS number to string conversion inside the
double-exact range. -/
theorem parseIntJS_intToString (n : Int) (h : n.natAbs ≤ 2 ^ 53) :
    parseIntJS (intToString n) = some n := by
  unfold intToString
  by_cases hn : n < 0
  · rw [if_pos hn]
    obtain ⟨hne, hdig, hval⟩ := natDigits_spec n.natAbs
    have hx := parseIntJS_signed_digits true (natDigits n.natAbs) hne hdig
      (by rw [hval]; exact h)
    simp only [if_true] at hx
    rw [hx, hval]
    congr 1
    omega
  · rw [if_neg hn]
    obtain ⟨hne, hdig, hval⟩ := natDigits_spec n.toNat
    have hx := parseIntJS_signed_digits false (natDigits n.toNat) hne hdig
      (by rw [hval]; omega)
    simp only [Bool.false_eq_true, if_false] at hx
    rw [hx, hval]
    congr 1
    omega

/-- Every character of intToString is a digit or the minus sign. -/
theorem intToString_chars (n : Int) :
    ∀ c ∈ intToString n, c.isDigit = true ∨ c = '-' := by
  intro c hc
  unfold intToString at hc
  by_cases hn : n < 0
  · rw [if_pos hn] at hc
    rcases List.mem_cons.mp hc with h1 | h1
    · exact Or.inr h1
    · exact Or.inl ((natDigits_spec n.natAbs).2.1 c h1)
  · rw [if_neg hn] at hc
    exact Or.inl ((natDigits_spec n.toNat).2.1 c hc)

/-- intToString is never empty. -/
theorem intToString_ne_nil (n : Int) : intToString n ≠ [] := by
  unfold intToString
  by_cases hn : n < 0
  · rw [if_pos hn]; simp
  · rw [if_neg hn]; exact (natDigits_spec n.toNat).1

/-- splitCh never returns the empty list of groups. -/
theorem splitCh_ne_nil (sep : Char) (l : List Char) : splitCh sep l ≠ [] := by
  induction l with
  | nil => simp [splitCh]
  | cons c cs ih =>
    unfold splitCh
    by_cases hcs : c = sep
    · rw [if_pos hcs]; simp
    · rw [if_neg hcs]
      cases h : splitCh sep cs with
      | nil => exact absurd h ih
      | cons g gs => simp

/-- Splitting a separator-free list gives a single group. -/
theorem splitCh_sepfree (sep : Char) (l : List Char) (h : sep ∉ l) :
    splitCh sep l = [l] := by
  induction l with
  | nil => rfl
  | cons c cs ih =>
    have hc : c ≠ sep := fun he => h (he ▸ List.mem_cons_self c cs)
    have hcs : sep ∉ cs := fun hm => h (List.mem_cons_of_mem c hm)
    unfold splitCh
    rw [if_neg hc, ih hcs]
    rfl

/-- Splitting a list whose first separator occurrence cuts off the prefix a. -/
theorem splitCh_append (sep : Char) (a b : List Char) (h : sep ∉ a) :
    splitCh sep (a ++ sep :: b) = a :: splitCh sep b := by
  induction a with
  | nil =>
    show splitCh sep (sep :: b) = [] :: splitCh sep b
    conv_lhs => unfold splitCh
    rw [if_pos rfl]
  | cons c a' ih =>
    have hc : c ≠ sep := fun he => h (he ▸ List.mem_cons_self c a')
    have ha' : sep ∉ a' := fun hm => h (List.mem_cons_of_mem c hm)
    show splitCh sep (c :: (a' ++ sep :: b)) = (c :: a') :: splitCh sep b
    conv_lhs => unfold splitCh
    rw [if_neg hc, ih ha']
    rfl

/-- No group returned by splitCh contains the separator. -/
theorem mem_splitCh_not_sep (sep : Char) :
    ∀ l, ∀ g ∈ splitCh sep l, sep ∉ g := by
  intro l
  induction l with
  | nil =>
    intro g hg
    simp only [splitCh, List.mem_singleton] at hg
    subst hg
    simp
  | cons c cs ih =>
    intro g hg
    unfold splitCh at hg
    by_cases hcs : c = sep
    · rw [if_pos hcs] at hg
      rcases List.mem_cons.mp hg with h1 | h1
      · subst h1; simp
      · exact ih g h1
    · rw [if_neg hcs] at hg
      cases h : splitCh sep cs with
      | nil => exact absurd h (splitCh_ne_nil sep cs)
      | cons g0 gs =>
        rw [h] at hg
        rcases List.mem_cons.mp hg with h1 | h1
        · subst h1
          intro hmem
          rcases List.mem_cons.mp hmem with h2 | h2
          · exact hcs h2.symm
          · exact ih g0 (h ▸ List.mem_cons_self g0 gs) h2
        · exact ih g (h ▸ List.mem_cons_of_mem g0 h1)



theorem parseRankLoop_nil (b : Board) (r f : Nat) :
    parseRankLoop b r [] f = some b := rfl

theorem parseRankLoop_cons (b : Board) (r : Nat) (c : Char) (cs : List Char)
    (f : Nat) :
    parseRankLoop b r (c :: cs) f =
      if c.isDigit then parseRankLoop b r cs (f + (c.toNat - 48))
      else if isJsWs c then none
      else if 8 * r + f < 64 then
        parseRankLoop (b.set (8 * r + f) (some c)) r cs (f + 1)
      else none := rfl

theorem emitRankAux_nil (e : Nat) :
    emitRankAux [] e = if e > 0 then natDigits e else [] := rfl

theorem emitRankAux_none (rest : List (Option Char)) (e : Nat) :
    emitRankAux (none :: rest) e = emitRankAux rest (e + 1) := rfl

theorem emitRankAux_some (c : Char) (rest : List (Option Char)) (e : Nat) :
    emitRankAux (some c :: rest) e =
      (if e > 0 then natDigits e else []) ++ c :: emitRankAux rest 0 := rfl

theorem placeRow_nil (b : Board) (r k : Nat) : placeRow b r k [] = b := rfl

theorem placeRow_none (b : Board) (r k : Nat) (rest : List (Option Char)) :
    placeRow b r k (none :: rest) = placeRow b r (k + 1) rest := rfl

theorem placeRow_some (b : Board) (r k : Nat) (c : Char)
    (rest : List (Option Char)) :
    placeRow b r k (some c :: rest) =
      placeRow (b.set (8 * r + k) (some c)) r (k + 1) rest := rfl

/-- For a single digit the emitter produces one character. -/
theorem natDigits_single (e : Nat) (h : e < 10) :
    natDigits e = [Char.ofNat (48 + e)] := by
  unfold natDigits natDigitsAux
  rw [if_pos h]

/-- Characters of a serialized rank are digits or pieces of the row. -/
theorem mem_emitRankAux (row : List (Option Char)) :
    ∀ e, ∀ c ∈ emitRankAux row e, c.isDigit = true ∨ some c ∈ row := by
  induction row with
  | nil =>
    intro e c hc
    rw [emitRankAux_nil] at hc
    by_cases he : e > 0
    · rw [if_pos he] at hc
      exact Or.inl ((natDigits_spec e).2.1 c hc)
    · rw [if_neg he] at hc
      exact absurd hc (List.not_mem_nil c)
  | cons oc rest ih =>
    intro e c hc
    cases oc with
    | none =>
      rw [emitRankAux_none] at hc
      rcases ih (e + 1) c hc with h1 | h1
      · exact Or.inl h1
      · exact Or.inr (List.mem_cons_of_mem none h1)
    | some c0 =>
      rw [emitRankAux_some] at hc
      rcases List.mem_append.mp hc with h1 | h1
      · by_cases he : e > 0
        · rw [if_pos he] at h1
          exact Or.inl ((natDigits_spec e).2.1 c h1)
        · rw [if_neg he] at h1
          exact absurd h1 (List.not_mem_nil c)
      · rcases List.mem_cons.mp h1 with h2 | h2
        · subst h2
          exact Or.inr (List.mem_cons_self (some c) rest)
        · rcases ih 0 c h2 with h3 | h3
          · exact Or.inl h3
          · exact Or.inr (List.mem_cons_of_mem (some c0) h3)

/-- Parsing a serialized rank writes exactly the occupied row slots, from
file f + e on, onto the board. -/
theorem parseRankLoop_emit (row : List (Option Char)) :
    ∀ (b : Board) (r f e : Nat), r ≤ 7 → f + e + row.length ≤ 8 →
    (∀ c, some c ∈ row → c.isDigit = false ∧ isJsWs c = false) →
    parseRankLoop b r (emitRankAux row e) f = some (placeRow b r (f + e) row) := by
  induction row with
  | nil =>
    intro b r f e hr hlen hrow
    rw [emitRankAux_nil, placeRow_nil]
    by_cases he : e > 0
    · have he10 : e < 10 := by simp at hlen; omega
      rw [if_pos he, natDigits_single e he10, parseRankLoop_cons,
        if_pos (digit_char_spec e he10).1, parseRankLoop_nil]
    · rw [if_neg he, parseRankLoop_nil]
  | cons oc rest ih =>
    intro b r f e hr hlen hrow
    cases oc with
    | none =>
      rw [emitRankAux_none, placeRow_none]
      have hlen' : f + (e + 1) + rest.length ≤ 8 := by
        simp only [List.length_cons] at hlen
        omega
      have hrow' : ∀ c, some c ∈ rest → c.isDigit = false ∧ isJsWs c = false :=
        fun c hm => hrow c (List.mem_cons_of_mem none hm)
      rw [ih b r f (e + 1) hr hlen' hrow']
      rfl
    | some c0 =>
      have hc0 := hrow c0 (List.mem_cons_self (some c0) rest)
      have hlt : 8 * r + (f + e) < 64 := by
        simp only [List.length_cons] at hlen
        omega
      have hlen' : (f + e + 1) + 0 + rest.length ≤ 8 := by
        simp only [List.length_cons] at hlen
        omega
      have hrow' : ∀ c, some c ∈ rest → c.isDigit = false ∧ isJsWs c = false :=
        fun c hm => hrow c (List.mem_cons_of_mem (some c0) hm)
      rw [emitRankAux_some, placeRow_some]
      by_cases he : e > 0
      · have he10 : e < 10 := by simp only [List.length_cons] at hlen; omega
        rw [if_pos he, natDigits_single e he10]
        show parseRankLoop b r (Char.ofNat (48 + e) :: (c0 :: emitRankAux rest 0)) f = _
        rw [parseRankLoop_cons, if_pos (digit_char_spec e he10).1,
          (digit_char_spec e he10).2]
        have hfe : f + (48 + e - 48) = f + e := by omega
        rw [hfe, parseRankLoop_cons, hc0.1, hc0.2]
        simp only [Bool.false_eq_true, if_false]
        rw [if_pos hlt]
        exact ih (b.set (8 * r + (f + e)) (some c0)) r (f + e + 1) 0 hr hlen' hrow' 
      · have he0 : e = 0 := by omega
        subst he0
        rw [if_neg he]
        show parseRankLoop b r (c0 :: emitRankAux rest 0) f = _
        rw [parseRankLoop_cons, hc0.1, hc0.2]
        simp only [Bool.false_eq_true, if_false]
        have hlt' : 8 * r + f < 64 := by omega
        rw [if_pos hlt']
        have h1 : f + 0 = f := by omega
        rw [h1]
        exact ih (b.set (8 * r + f) (some c0)) r (f + 1) 0 hr (by omega) hrow' 



/-- placeRow preserves the board length. -/
theorem placeRow_length (row : List (Option Char)) :
    ∀ (b : Board) (r k : Nat), (placeRow b r k row).length = b.length := by
  induction row with
  | nil => intro b r k; rfl
  | cons oc rest ih =>
    intro b r k
    cases oc with
    | none => rw [placeRow_none, ih]
    | some c => rw [placeRow_some, ih, List.length_set]

/-- Pointwise description of placeRow: inside the written window the occupied
row entries are placed, everything else is untouched. -/
theorem placeRow_getElem? (row : List (Option Char)) :
    ∀ (b : Board) (r k j : Nat), 8 * r + k + row.length ≤ b.length →
    (placeRow b r k row)[j]? =
      if 8 * r + k ≤ j ∧ j < 8 * r + k + row.length ∧
          (row.getD (j - (8 * r + k)) none).isSome = true
      then some (row.getD (j - (8 * r + k)) none)
      else b[j]? := by
  induction row with
  | nil =>
    intro b r k j hlen
    rw [placeRow_nil, if_neg]
    rintro ⟨h1, h2, h3⟩
    simp only [List.length_nil, Nat.add_zero] at h2
    omega
  | cons oc rest ih =>
    intro b r k j hlen
    simp only [List.length_cons] at hlen ⊢
    by_cases hj : j = 8 * r + k
    · subst hj
      cases oc with
      | none =>
        rw [placeRow_none, ih b r (k + 1) _ (by omega)]
        rw [if_neg (by omega), if_neg]
        rintro ⟨h1, h2, h3⟩
        simp only [Nat.sub_self, List.getD_cons_zero, Option.isSome_none] at h3
        exact Bool.false_ne_true h3
      | some c =>
        rw [placeRow_some, ih _ r (k + 1) _ (by rw [List.length_set]; omega)]
        rw [if_neg (by omega)]
        rw [if_pos ⟨by omega, by omega, by simp⟩]
        rw [List.getElem?_set_self']
        have hjlt : 8 * r + k < b.length := by omega
        rw [Nat.sub_self, List.getD_cons_zero]
        rw [show b[8 * r + k]? = some b[8 * r + k] from
          List.getElem?_eq_getElem hjlt]
        rfl
    · cases oc with
      | none =>
        rw [placeRow_none, ih b r (k + 1) _ (by omega)]
        by_cases hin : 8 * r + k ≤ j
        · have hsucc : 8 * r + (k + 1) ≤ j := by omega
          have hsub : j - (8 * r + k) = (j - (8 * r + (k + 1))) + 1 := by omega
          rw [hsub]
          simp only [List.getD_cons_succ]
          by_cases hc2 : j < 8 * r + (k + 1) + rest.length ∧
              (rest.getD (j - (8 * r + (k + 1))) none).isSome = true
          · rw [if_pos ⟨hsucc, hc2.1, hc2.2⟩, if_pos ⟨hin, by omega, hc2.2⟩]
          · rw [if_neg (by intro h; exact hc2 ⟨by omega, h.2.2⟩),
              if_neg (by intro h; exact hc2 ⟨by omega, h.2.2⟩)]
        · rw [if_neg (by omega), if_neg (by omega)]
      | some c =>
        rw [placeRow_some, ih _ r (k + 1) _ (by rw [List.length_set]; omega)]
        by_cases hin : 8 * r + k ≤ j
        · have hsucc : 8 * r + (k + 1) ≤ j := by omega
          have hsub : j - (8 * r + k) = (j - (8 * r + (k + 1))) + 1 := by omega
          rw [hsub]
          simp only [List.getD_cons_succ]
          by_cases hc2 : j < 8 * r + (k + 1) + rest.length ∧
              (rest.getD (j - (8 * r + (k + 1))) none).isSome = true
          · rw [if_pos ⟨hsucc, hc2.1, hc2.2⟩, if_pos ⟨hin, by omega, hc2.2⟩]
          · rw [if_neg (by intro h; exact hc2 ⟨by omega, h.2.2⟩),
              if_neg (by intro h; exact hc2 ⟨by omega, h.2.2⟩),
              List.getElem?_set_ne (by omega)]
        · rw [if_neg (by omega), if_neg (by omega),
            List.getElem?_set_ne (by omega)]

/-- The length of a board row slice. -/
theorem rowSlots_length (b : Board) (r : Nat) (hb : b.length = 64) (hr : r ≤ 7) :
    (rowSlots b r).length = 8 := by
  unfold rowSlots
  rw [List.length_take, List.length_drop, hb]
  omega

/-- Entries of a board row slice. -/
theorem rowSlots_getD (b : Board) (r j : Nat) (hj : j < 8) :
    (rowSlots b r).getD j none = b.getD (8 * r + j) none := by
  unfold rowSlots
  rw [List.getD_eq_getElem?_getD, List.getD_eq_getElem?_getD,
    List.getElem?_take, if_pos hj, List.getElem?_drop]

/-- Members of a row slice are members of the board. -/
theorem rowSlots_subset (b : Board) (r : Nat) :
    ∀ oc ∈ rowSlots b r, oc ∈ b := by
  intro oc h
  exact List.mem_of_mem_drop (List.mem_of_mem_take h)



/-- One row of the serialized board, parsed back, extends the rebuilt prefix
by one row. -/
theorem board_build_step (b D : Board) (r : Nat) (hb : b.length = 64)
    (hD : D.length = 64) (hr : r ≤ 7)
    (hlow : ∀ j, j < 8 * r → D[j]? = b[j]?)
    (hhigh : ∀ j, 8 * r ≤ j → j < 64 → D[j]? = some none) :
    (placeRow D r 0 (rowSlots b r)).length = 64 ∧
    (∀ j, j < 8 * (r + 1) → (placeRow D r 0 (rowSlots b r))[j]? = b[j]?) ∧
    (∀ j, 8 * (r + 1) ≤ j → j < 64 →
      (placeRow D r 0 (rowSlots b r))[j]? = some none) := by
  have hlen8 := rowSlots_length b r hb hr
  have hple : 8 * r + 0 + (rowSlots b r).length ≤ D.length := by
    rw [hlen8, hD]; omega
  refine ⟨by rw [placeRow_length, hD], ?_, ?_⟩
  · intro j hj
    rw [placeRow_getElem? _ D r 0 j hple, hlen8]
    by_cases hin : 8 * r ≤ j
    · have hjw : j - (8 * r + 0) < 8 := by omega
      have hgd : (rowSlots b r).getD (j - (8 * r + 0)) none = b.getD j none := by
        rw [rowSlots_getD b r _ hjw]
        congr 1
        omega
      have hbj : b[j]? = some (b.getD j none) := by
        have hjb : j < b.length := by omega
        rw [List.getD_eq_getElem?_getD, List.getElem?_eq_getElem hjb]
        rfl
      by_cases hs : (b.getD j none).isSome = true
      · rw [if_pos ⟨by omega, by omega, by rw [hgd]; exact hs⟩, hgd, hbj]
      · rw [if_neg (by intro h; exact hs (by rw [← hgd]; exact h.2.2))]
        rw [hhigh j hin (by omega), hbj]
        cases hgn : b.getD j none with
        | none => rfl
        | some c => rw [hgn] at hs; simp at hs
    · rw [if_neg (by omega)]
      exact hlow j (by omega)
  · intro j hj1 hj2
    rw [placeRow_getElem? _ D r 0 j hple, hlen8, if_neg (by omega)]
    exact hhigh j (by omega) hj2

/-- Rebuilding all eight rows of a 64-slot board from its row slices onto the
all-empty board gives the board back. -/
theorem board_rebuild (b : Board) (hb : b.length = 64) :
    placeRow (placeRow (placeRow (placeRow (placeRow (placeRow (placeRow
      (placeRow (List.replicate 64 none) 0 0 (rowSlots b 0)) 1 0 (rowSlots b 1))
      2 0 (rowSlots b 2)) 3 0 (rowSlots b 3)) 4 0 (rowSlots b 4)) 5 0
      (rowSlots b 5)) 6 0 (rowSlots b 6)) 7 0 (rowSlots b 7) = b := by
  have h0len : (List.replicate 64 (none : Option Char)).length = 64 := by simp
  have h0low : ∀ j, j < 8 * 0 →
      (List.replicate 64 (none : Option Char))[j]? = b[j]? :=
    fun j hj => absurd hj (by omega)
  have h0high : ∀ j, 8 * 0 ≤ j → j < 64 →
      (List.replicate 64 (none : Option Char))[j]? = some none := by
    intro j _ hj
    rw [List.getElem?_replicate, if_pos hj]
  obtain ⟨l1, a1, g1⟩ := board_build_step b _ 0 hb h0len (by omega) h0low h0high
  obtain ⟨l2, a2, g2⟩ := board_build_step b _ 1 hb l1 (by omega)
    (fun j hj => a1 j (by omega)) (fun j h1 h2 => g1 j (by omega) h2)
  obtain ⟨l3, a3, g3⟩ := board_build_step b _ 2 hb l2 (by omega)
    (fun j hj => a2 j (by omega)) (fun j h1 h2 => g2 j (by omega) h2)
  obtain ⟨l4, a4, g4⟩ := board_build_step b _ 3 hb l3 (by omega)
    (fun j hj => a3 j (by omega)) (fun j h1 h2 => g3 j (by omega) h2)
  obtain ⟨l5, a5, g5⟩ := board_build_step b _ 4 hb l4 (by omega)
    (fun j hj => a4 j (by omega)) (fun j h1 h2 => g4 j (by omega) h2)
  obtain ⟨l6, a6, g6⟩ := board_build_step b _ 5 hb l5 (by omega)
    (fun j hj => a5 j (by omega)) (fun j h1 h2 => g5 j (by omega) h2)
  obtain ⟨l7, a7, g7⟩ := board_build_step b _ 6 hb l6 (by omega)
    (fun j hj => a6 j (by omega)) (fun j h1 h2 => g6 j (by omega) h2)
  obtain ⟨l8, a8, g8⟩ := board_build_step b _ 7 hb l7 (by omega)
    (fun j hj => a7 j (by omega)) (fun j h1 h2 => g7 j (by omega) h2)
  refine List.ext_getElem? fun j => ?_
  by_cases hj : j < 64
  · exact a8 j (by omega)
  · rw [List.getElem?_eq_none (by rw [l8]; omega),
      List.getElem?_eq_none (by rw [hb]; omega)]



theorem parseRanksGo_nil (b : Board) (r : Nat) : parseRanksGo b r [] = some b := rfl

theorem parseRanksGo_cons_some (b b2 : Board) (r : Nat) (t : List Char)
    (ts : List (List Char)) (h : parseRankLoop b r t 0 = some b2) :
    parseRanksGo b r (t :: ts) = parseRanksGo b2 (r + 1) ts := by
  conv_lhs => unfold parseRanksGo
  rw [h]

/-- A slash never occurs in a serialized rank of a well-formed board. -/
theorem emitRank_no_slash (b : Board) (hok : boardOK b) (r : Nat) :
    '/' ∉ emitRankAux (rowSlots b r) 0 := by
  intro hmem
  rcases mem_emitRankAux _ 0 '/' hmem with h | h
  · exact absurd h (by decide)
  · exact (hok.2 (some '/') (rowSlots_subset b r _ h) '/' rfl).2.2 rfl

/-- Splitting the serialized board at slashes recovers the eight serialized
rows, top row first. -/
theorem emitBoard_split (b : Board) (hok : boardOK b) :
    splitCh '/' (emitBoard b) =
      [emitRankAux (rowSlots b 7) 0, emitRankAux (rowSlots b 6) 0,
       emitRankAux (rowSlots b 5) 0, emitRankAux (rowSlots b 4) 0,
       emitRankAux (rowSlots b 3) 0, emitRankAux (rowSlots b 2) 0,
       emitRankAux (rowSlots b 1) 0, emitRankAux (rowSlots b 0) 0] := by
  unfold emitBoard
  rw [splitCh_append _ _ _ (emitRank_no_slash b hok 7),
    splitCh_append _ _ _ (emitRank_no_slash b hok 6),
    splitCh_append _ _ _ (emitRank_no_slash b hok 5),
    splitCh_append _ _ _ (emitRank_no_slash b hok 4),
    splitCh_append _ _ _ (emitRank_no_slash b hok 3),
    splitCh_append _ _ _ (emitRank_no_slash b hok 2),
    splitCh_append _ _ _ (emitRank_no_slash b hok 1),
    splitCh_sepfree _ _ (emitRank_no_slash b hok 0)]

/-- parseBoardPart applied to a text whose slash split is known. -/
theorem parseBoardPart_ranks (bp : List Char)
    (t0 t1 t2 t3 t4 t5 t6 t7 : List Char)
    (h : splitCh '/' bp = [t7, t6, t5, t4, t3, t2, t1, t0]) :
    parseBoardPart bp =
      parseRanksGo (List.replicate 64 none) 0 [t0, t1, t2, t3, t4, t5, t6, t7] := by
  unfold parseBoardPart
  rw [h]
  rfl

/-- Parsing one serialized row r of a well-formed board onto any 64-slot
board writes that row. -/
theorem parseRank_emit0 (D b : Board) (r : Nat) (hr : r ≤ 7)
    (hok : boardOK b) :
    parseRankLoop D r (emitRankAux (rowSlots b r) 0) 0 =
      some (placeRow D r 0 (rowSlots b r)) := by
  have hlen : (0 : Nat) + 0 + (rowSlots b r).length ≤ 8 := by
    rw [rowSlots_length b r hok.1 hr]
  have hgood : ∀ c, some c ∈ rowSlots b r →
      c.isDigit = false ∧ isJsWs c = false := by
    intro c hm
    have hv := hok.2 (some c) (rowSlots_subset b r _ hm) c rfl
    exact ⟨hv.1, hv.2.1⟩
  have h := parseRankLoop_emit (rowSlots b r) D r 0 0 hr hlen hgood
  simpa using h

/-- The serialized board of a well-formed board parses back to the board. -/
theorem parseBoardPart_emitBoard (b : Board) (hok : boardOK b) :
    parseBoardPart (emitBoard b) = some b := by
  rw [parseBoardPart_ranks (emitBoard b) _ _ _ _ _ _ _ _ (emitBoard_split b hok)]
  rw [parseRanksGo_cons_some _ _ _ _ _ (parseRank_emit0 _ b 0 (by omega) hok)]
  rw [parseRanksGo_cons_some _ _ _ _ _ (parseRank_emit0 _ b 1 (by omega) hok)]
  rw [parseRanksGo_cons_some _ _ _ _ _ (parseRank_emit0 _ b 2 (by omega) hok)]
  rw [parseRanksGo_cons_some _ _ _ _ _ (parseRank_emit0 _ b 3 (by omega) hok)]
  rw [parseRanksGo_cons_some _ _ _ _ _ (parseRank_emit0 _ b 4 (by omega) hok)]
  rw [parseRanksGo_cons_some _ _ _ _ _ (parseRank_emit0 _ b 5 (by omega) hok)]
  rw [parseRanksGo_cons_some _ _ _ _ _ (parseRank_emit0 _ b 6 (by omega) hok)]
  rw [parseRanksGo_cons_some _ _ _ _ _ (parseRank_emit0 _ b 7 (by omega) hok)]
  rw [parseRanksGo_nil]
  rw [board_rebuild b hok.1]



/-- Digit character code bounds. -/
theorem char_digit_bounds (c : Char) (h : c.isDigit = true) :
    48 ≤ c.toNat ∧ c.toNat ≤ 57 := by
  simp [Char.isDigit] at h
  exact h

/-- The entry property of boardOK, separated. -/
theorem boardOK_replicate : boardOK (List.replicate 64 none) := by
  constructor
  · simp
  · intro oc hm c hc
    rw [List.eq_of_mem_replicate hm] at hc
    exact absurd hc (by simp)

/-- One rank parse preserves well-formedness of the board. -/
theorem parseRankLoop_preserves (t : List Char) :
    ∀ (b : Board) (r f : Nat) (b2 : Board), '/' ∉ t →
    parseRankLoop b r t f = some b2 → boardOK b → boardOK b2 := by
  induction t with
  | nil =>
    intro b r f b2 hsl hp hok
    rw [parseRankLoop_nil] at hp
    simp only [Option.some.injEq] at hp
    exact hp ▸ hok
  | cons c cs ih =>
    intro b r f b2 hsl hp hok
    have hslc : c ≠ '/' := fun he => hsl (he ▸ List.mem_cons_self c cs)
    have hslcs : '/' ∉ cs := fun hm => hsl (List.mem_cons_of_mem c hm)
    rw [parseRankLoop_cons] at hp
    split_ifs at hp with h1 h2 h3
    · exact ih b r _ b2 hslcs hp hok
    · exact ih _ r _ b2 hslcs hp
        ⟨by rw [List.length_set]; exact hok.1, by
          intro oc hm cx hcx
          rcases List.mem_or_eq_of_mem_set hm with hmem | heq
          · exact hok.2 oc hmem cx hcx
          · rw [heq] at hcx
            simp only [Option.some.injEq] at hcx
            subst hcx
            exact ⟨by rwa [Bool.not_eq_true] at h1, by rwa [Bool.not_eq_true] at h2,
              hslc⟩⟩

/-- The outer rank loop preserves well-formedness. -/
theorem parseRanksGo_preserves :
    ∀ (ts : List (List Char)) (b : Board) (r : Nat) (b2 : Board),
    (∀ t ∈ ts, '/' ∉ t) → parseRanksGo b r ts = some b2 → boardOK b →
    boardOK b2 := by
  intro ts
  induction ts with
  | nil =>
    intro b r b2 hsl hp hok
    rw [parseRanksGo_nil] at hp
    simp only [Option.some.injEq] at hp
    exact hp ▸ hok
  | cons t ts ih =>
    intro b r b2 hsl hp hok
    cases hx : parseRankLoop b r t 0 with
    | none =>
      conv_lhs at hp => unfold parseRanksGo
      rw [hx] at hp
      exact absurd hp (by simp)
    | some bm =>
      rw [parseRanksGo_cons_some b bm r t ts hx] at hp
      exact ih bm (r + 1) b2 (fun u hu => hsl u (List.mem_cons_of_mem t hu)) hp
        (parseRankLoop_preserves t b r 0 bm
          (hsl t (List.mem_cons_self t ts)) hx hok)

/-- Every board produced by parseBoardPart is well formed. -/
theorem parseBoardPart_ok (bp : List Char) (b : Board)
    (hp : parseBoardPart bp = some b) : boardOK b := by
  simp only [parseBoardPart] at hp
  split at hp
  case _ t0 t1 t2 t3 t4 t5 t6 t7 h7 h6 h5 h4 h3 h2 h1 h0 =>
    have hmem : ∀ t ∈ [t0, t1, t2, t3, t4, t5, t6, t7], '/' ∉ t := by
      intro t ht
      simp only [List.mem_cons, List.not_mem_nil, or_false] at ht
      have hin : t ∈ splitCh '/' bp := by
        rcases ht with rfl | rfl | rfl | rfl | rfl | rfl | rfl | rfl
        · exact List.get?_mem h7
        · exact List.get?_mem h6
        · exact List.get?_mem h5
        · exact List.get?_mem h4
        · exact List.get?_mem h3
        · exact List.get?_mem h2
        · exact List.get?_mem h1
        · exact List.get?_mem h0
      exact mem_splitCh_not_sep '/' bp t hin
    exact parseRanksGo_preserves [t0, t1, t2, t3, t4, t5, t6, t7] _ 0 b hmem hp
      boardOK_replicate
  case _ => exact absurd hp (by simp)

/-- parseIntJS only returns values in the double-exact range. -/
theorem parseIntJS_bound (s : List Char) (v : Int) (h : parseIntJS s = some v) :
    v.natAbs ≤ 2 ^ 53 := by
  simp only [parseIntJS] at h
  split_ifs at h with h1 h2
  simp only [Option.some.injEq] at h
  exact h ▸ h2

/-- parseNumPart only returns values in the double-exact range. -/
theorem parseNumPart_bound (x : Option (List Char)) (d : List Char) (v : Int)
    (h : parseNumPart x d = some v) : v.natAbs ≤ 2 ^ 53 := by
  cases x with
  | none =>
    rw [show parseNumPart none d = parseIntJS d from rfl] at h
    exact parseIntJS_bound d v h
  | some t =>
    rw [show parseNumPart (some t) d =
      (if t = [] then parseIntJS d else parseIntJS t) from rfl] at h
    by_cases ht : t = []
    · rw [if_pos ht] at h
      exact parseIntJS_bound d v h
    · rw [if_neg ht] at h
      exact parseIntJS_bound t v h

/-- A single character parses to a digit value 0..9 when it parses at all. -/
theorem parseIntJS_single (c : Char) (r : Int) (h : parseIntJS [c] = some r) :
    0 ≤ r ∧ r ≤ 9 := by
  simp only [parseIntJS] at h
  cases hws : isJsWs c with
  | true =>
    rw [show List.dropWhile isJsWs [c] = [] by
      rw [List.dropWhile_cons_of_pos hws]; rfl] at h
    simp [parseSign, List.takeWhile] at h
  | false =>
    rw [show List.dropWhile isJsWs [c] = [c] from
      List.dropWhile_cons_of_neg (by rw [hws]; simp)] at h
    rw [parseSign_cons] at h
    by_cases hm : c = '-'
    · rw [if_pos hm] at h
      simp [List.takeWhile] at h
    · rw [if_neg hm] at h
      by_cases hp2 : c = '+'
      · rw [if_pos hp2] at h
        simp [List.takeWhile] at h
      · rw [if_neg hp2] at h
        cases hd : c.isDigit with
        | false =>
          rw [show List.takeWhile Char.isDigit [c] = [] by
            simp [List.takeWhile, hd]] at h
          simp at h
        | true =>
          rw [show List.takeWhile Char.isDigit [c] = [c] by
            simp [List.takeWhile, hd]] at h
          rw [if_neg (by simp)] at h
          have hb := char_digit_bounds c hd
          split_ifs at h
          simp only [Option.some.injEq] at h
          subst h
          unfold digitsVal
          simp only [List.foldl_cons, List.foldl_nil]
          omega

/-- The file index of a character is between -1 and 7. -/
theorem filesIndexOf_bounds (c : Char) :
    -1 ≤ filesIndexOf c ∧ filesIndexOf c ≤ 7 := by
  unfold filesIndexOf
  cases h : FILES.findIdx? (fun d => d = c) with
  | none => simp
  | some i =>
    have hi : i < FILES.length :=
      (List.findIdx?_eq_some_iff_findIdx_eq.mp h).1
    rw [show FILES.length = 8 from rfl] at hi
    change -1 ≤ (i : Int) ∧ (i : Int) ≤ 7
    omega



/-- Bounds of a parsed en-passant square token. -/
theorem squareToIndex_bounds (t : List Char) (ep : Int)
    (h : squareToIndex t = some ep) : -9 ≤ ep ∧ ep ≤ 71 := by
  simp only [squareToIndex] at h
  split at h
  · exact absurd h (by simp)
  · next c h1 =>
    split at h
    · exact absurd h (by simp)
    · next r h2 =>
      simp only [Option.some.injEq] at h
      have hr := parseIntJS_single c r h2
      have hf := filesIndexOf_bounds (t.getD 0 ' ')
      omega

/-- Bounds of the parsed en-passant field. -/
theorem parseEpPart_bounds (x : Option (List Char)) (ep : Int)
    (h : parseEpPart x = some ep) : ep = -1 ∨ (-9 ≤ ep ∧ ep ≤ 71) := by
  cases x with
  | none =>
    rw [show parseEpPart none = none from rfl] at h
    exact absurd h (by simp)
  | some t =>
    rw [show parseEpPart (some t) =
      (if t = ['-'] then some (-1) else squareToIndex t) from rfl] at h
    by_cases ht : t = ['-']
    · rw [if_pos ht] at h
      simp only [Option.some.injEq] at h
      exact Or.inl h.symm
    · rw [if_neg ht] at h
      exact Or.inr (squareToIndex_bounds t ep h)

/-- Characters of the serialized board. -/
theorem mem_emitBoard (b : Board) :
    ∀ c ∈ emitBoard b, c = '/' ∨ c.isDigit = true ∨ some c ∈ b := by
  intro c hc
  have hrank : ∀ r : Nat, c ∈ emitRankAux (rowSlots b r) 0 →
      c.isDigit = true ∨ some c ∈ b := by
    intro r hm
    rcases mem_emitRankAux _ 0 c hm with h | h
    · exact Or.inl h
    · exact Or.inr (rowSlots_subset b r _ h)
  unfold emitBoard at hc
  simp only [List.mem_append, List.mem_cons] at hc
  rcases hc with h|h|h|h|h|h|h|h|h|h|h|h|h|h|h
  · exact Or.inr (hrank 7 h)
  · exact Or.inl h
  · exact Or.inr (hrank 6 h)
  · exact Or.inl h
  · exact Or.inr (hrank 5 h)
  · exact Or.inl h
  · exact Or.inr (hrank 4 h)
  · exact Or.inl h
  · exact Or.inr (hrank 3 h)
  · exact Or.inl h
  · exact Or.inr (hrank 2 h)
  · exact Or.inl h
  · exact Or.inr (hrank 1 h)
  · exact Or.inl h
  · exact Or.inr (hrank 0 h)

/-- No space occurs in the serialized board of a well-formed board. -/
theorem emitBoard_no_space (b : Board) (hok : boardOK b) : ' ' ∉ emitBoard b := by
  intro h
  rcases mem_emitBoard b ' ' h with h1 | h1 | h1
  · exact absurd h1 (by decide)
  · exact absurd h1 (by decide)
  · exact absurd (by decide : isJsWs ' ' = true)
      (by rw [(hok.2 (some ' ') h1 ' ' rfl).2.1]; simp)

/-- No space occurs in a serialized number. -/
theorem intToString_no_space (n : Int) : ' ' ∉ intToString n := by
  intro h
  rcases intToString_chars n ' ' h with h1 | h1
  · exact absurd h1 (by decide)
  · exact absurd h1 (by decide)

/-- The file letter lookup never returns a space. -/
theorem filesGetD_ne_space (n : Nat) : FILES.getD n '?' ≠ ' ' := by
  by_cases h : n < 8
  · interval_cases n <;> decide
  · rw [List.getD_eq_default _ _ (by rw [show FILES.length = 8 from rfl]; omega)]
    decide

/-- No space occurs in the serialized en-passant field. -/
theorem epField_no_space (ep : Int) :
    ' ' ∉ (if ep = -1 then ['-'] else indexToSquare ep) := by
  by_cases h : ep = -1
  · rw [if_pos h]
    decide
  · rw [if_neg h]
    unfold indexToSquare
    by_cases h2 : 0 ≤ Int.tmod ep 8
    · rw [if_pos h2]
      intro hm
      rcases List.mem_cons.mp hm with h3 | h3
      · exact filesGetD_ne_space _ h3.symm
      · exact intToString_no_space _ h3
    · rw [if_neg h2]
      decide

/-- Characters of the serialized castling field. -/
theorem mem_emitCastling (s : State) :
    ∀ c ∈ emitCastling s, c = 'K' ∨ c = 'Q' ∨ c = 'k' ∨ c = 'q' ∨ c = '-' := by
  rcases s with ⟨b, w, cK, cQ, ck, cq, ep, hm, fm⟩
  intro c hc
  cases cK <;> cases cQ <;> cases ck <;> cases cq <;>
    simp [emitCastling] at hc <;> tauto

/-- No space occurs in the serialized castling field. -/
theorem emitCastling_no_space (s : State) : ' ' ∉ emitCastling s := by
  intro h
  rcases mem_emitCastling s ' ' h with h1 | h1 | h1 | h1 | h1 <;>
    exact absurd h1 (by decide)

/-- No space occurs in the serialized turn field. -/
theorem turnField_no_space (w : Bool) :
    ' ' ∉ (if w then ['w'] else ['b']) := by
  cases w <;> decide

/-- The space split of a generated FEN gives exactly the six fields. -/
theorem generateFEN_fields (p : State) (hok : boardOK p.board) :
    splitCh ' ' (generateFEN p) =
      [emitBoard p.board,
       (if p.whiteToMove then ['w'] else ['b']),
       emitCastling p,
       (if p.enPassant = -1 then ['-'] else indexToSquare p.enPassant),
       intToString p.halfmove,
       intToString p.fullmove] := by
  unfold generateFEN
  rw [splitCh_append _ _ _ (emitBoard_no_space p.board hok),
    splitCh_append _ _ _ (turnField_no_space p.whiteToMove),
    splitCh_append _ _ _ (emitCastling_no_space p),
    splitCh_append _ _ _ (epField_no_space p.enPassant),
    splitCh_append _ _ _ (intToString_no_space p.halfmove),
    splitCh_sepfree _ _ (intToString_no_space p.fullmove)]

/-- Parsing the serialized castling flags restores the flags. -/
theorem parseCastlingPart_emitCastling (s : State) :
    parseCastlingPart (some (emitCastling s)) =
      (s.castleK, s.castleQ, s.castlek, s.castleq) := by
  rcases s with ⟨b, w, cK, cQ, ck, cq, ep, hm, fm⟩
  cases cK <;> cases cQ <;> cases ck <;> cases cq <;> rfl

/-- Parsing the serialized en-passant field of a good index restores it. -/
theorem parseEpPart_emitEp (ep : Int)
    (h : ep = -1 ∨ ep = -8 ∨ (0 ≤ ep ∧ ep ≤ 71)) :
    parseEpPart (some (if ep = -1 then ['-'] else indexToSquare ep)) = some ep := by
  rcases h with rfl | rfl | ⟨h1, h2⟩
  · rfl
  · decide
  · interval_cases ep <;> decide

/-- Parsing a serialized number restores it. -/
theorem parseNumPart_intToString (n : Int) (d : List Char)
    (h : n.natAbs ≤ 2 ^ 53) :
    parseNumPart (some (intToString n)) d = some n := by
  rw [show parseNumPart (some (intToString n)) d =
    (if intToString n = [] then parseIntJS d else parseIntJS (intToString n))
    from rfl, if_neg (intToString_ne_nil n)]
  exact parseIntJS_intToString n h



/-- Facts about every state the parser produces: well-formed board, bounded
en-passant index, numeric fields in the double-exact range. -/
theorem fenToState_facts (fen : List Char) (p : State)
    (h : fenToState fen = some p) :
    boardOK p.board ∧
    (p.enPassant = -1 ∨ (-9 ≤ p.enPassant ∧ p.enPassant ≤ 71)) ∧
    p.halfmove.natAbs ≤ 2 ^ 53 ∧ p.fullmove.natAbs ≤ 2 ^ 53 := by
  simp only [fenToState] at h
  split at h
  · next b ep hm fm hb hep hhm hfm =>
    simp only [Option.some.injEq] at h
    subst h
    exact ⟨parseBoardPart_ok _ _ hb, parseEpPart_bounds _ _ hep,
      parseNumPart_bound _ _ _ hhm, parseNumPart_bound _ _ _ hfm⟩
  · exact absurd h (by simp)

/-- The amended round-trip law: serializing a parser-produced state and
parsing it back restores the state, whenever its en-passant index is not one
of the junk values that serialize to an unparseable token. -/
theorem fenToState_generateFEN (p : State) (hok : boardOK p.board)
    (hep : p.enPassant = -1 ∨ p.enPassant = -8 ∨
      (0 ≤ p.enPassant ∧ p.enPassant ≤ 71))
    (hhm : p.halfmove.natAbs ≤ 2 ^ 53) (hfm : p.fullmove.natAbs ≤ 2 ^ 53) :
    fenToState (generateFEN p) = some p := by
  obtain ⟨pb, pw, pcK, pcQ, pck, pcq, pep, phm, pfm⟩ := p
  simp only [fenToState]
  rw [generateFEN_fields _ hok]
  simp only [List.getD_cons_zero, List.get?_cons_succ, List.get?_cons_zero]
  rw [parseBoardPart_emitBoard _ hok]
  rw [parseEpPart_emitEp _ hep]
  rw [parseNumPart_intToString _ _ hhm, parseNumPart_intToString _ _ hfm]
  rw [show (decide (some (if pw then ['w'] else ['b']) = some ['w'])) = pw by
    cases pw <;> rfl]
  rw [parseCastlingPart_emitCastling
    ⟨pb, pw, pcK, pcQ, pck, pcq, pep, phm, pfm⟩]



/-- Claim C3 (amended): the round-trip law parse-serialize-parse holds for
every state the parser produces whose en-passant index is -1 (absent), -8,
or a real board index 0..71.  The original claim, for every parser-produced
state, is refuted by the counterexample below: the parser accepts junk
en-passant tokens such as i0 and stores an index like -9, which serializes
to a NaN token that the parser then rejects. -/
theorem C3_parse_serialize_roundtrip_amended (fen : List Char) (p : State)
    (hp : fenToState fen = some p)
    (hep : p.enPassant = -1 ∨ p.enPassant = -8 ∨
      (0 ≤ p.enPassant ∧ p.enPassant ≤ 71)) :
    fenToState (generateFEN p) = some p := by
  obtain ⟨hok, _, hhm, hfm⟩ := fenToState_facts fen p hp
  exact fenToState_generateFEN p hok hep hhm hfm

set_option maxRecDepth 1000000 in
/-- Witness for the amended C3 round trip at the standard starting
position. -/
theorem C3_parse_serialize_roundtrip_amended_witness :
    fenToState startFEN.toList = some startState ∧
    fenToState (generateFEN startState) = some startState :=
  ⟨by decide, C3_parse_serialize_roundtrip_amended startFEN.toList startState
    (by decide) (by decide)⟩

set_option maxRecDepth 1000000 in
/-- Counterexample to C3 as stated: the parser accepts the text with the
junk en-passant token i0, producing a state with en-passant index -9, and
parsing the serialization of that state fails, so the round trip does not
restore it. -/
theorem C3_junk_ep_token_breaks_roundtrip :
    (fenToState fenC3.toList).isSome = true ∧
    ((fenToState fenC3.toList).getD junkState).enPassant = -9 ∧
    fenToState (generateFEN ((fenToState fenC3.toList).getD junkState)) = none := by
  refine ⟨?_, ?_, ?_⟩ <;> decide

